import Mathlib

/-!
Verification of the SSE codec and reverse-proxy translation logic of the
llm-reverse-proxy repository.  Byte streams are modelled as `List Nat`
(each element a byte value) and decoded text as `List Char`.  The
definitions below are shallow embeddings of the corresponding Rust
functions in `src/reverse-proxy/src/sse.rs`,
`src/reverse-proxy/src/openai/proxy.rs`, `src/reverse-proxy/src/openai/api.rs`
and `src/reverse-proxy/src/http_util/proxy.rs`.
-/

namespace LlmProxy

/-! ## SSE lines (sse.rs, `Line`) -/

/-- Embedding of `Line<'a>` from sse.rs. -/
inductive Line where
  | comment (text : List Char)
  | field (name value : List Char)
  | empty
deriving DecidableEq, Repr

/-- Embedding of `str::split_once(":")`: split at the first colon. -/
def splitOnceColon : List Char → Option (List Char × List Char)
  | [] => none
  | c :: rest =>
    if c = ':' then some ([], rest)
    else (splitOnceColon rest).map (fun p => (c :: p.1, p.2))

/-- Embedding of `value.strip_prefix(' ').unwrap_or(value)`: drop one leading space. -/
def stripSpace (v : List Char) : List Char :=
  match v with
  | c :: rest => if c = ' ' then rest else v
  | [] => v

/-- Embedding of `Line::from_str` (sse.rs lines 14-37). -/
def Line.from_str (line : List Char) : Line :=
  match splitOnceColon line with
  | some (name, value) =>
    if name ≠ [] then Line.field name (stripSpace value)
    else Line.comment value
  | none =>
    if line ≠ [] then Line.field line []
    else Line.empty

/-- Embedding of `Line::write_to` (sse.rs lines 39-55); produces the characters written. -/
def Line.write_to : Line → List Char
  | Line.comment t => ':' :: t
  | Line.field n v => if v = [] then n else n ++ ':' :: ' ' :: v
  | Line.empty => []

/-! ## Events (sse.rs, `Event`) -/

/-- Embedding of `Event<'a>` from sse.rs.  `retry` is the duration in whole
milliseconds: the parser only ever constructs durations via
`Duration::from_millis` and the writer only reads `retry.as_millis()`,
so millisecond granularity is faithful for everything proved here. -/
structure Event where
  type_ : Option (List Char) := none
  data : Option (List Char) := none
  id : Option (List Char) := none
  retry : Option Nat := none
deriving DecidableEq, Repr

/-- `Event::default()`: all fields absent. -/
def Event.empty : Event := {}

/-- Embedding of `u64::from_str` as used by `value.parse::<u64>()`:
an optional leading plus sign, then one or more ASCII digits, value
bounded by `u64::MAX`. -/
def parseU64 (s : List Char) : Option Nat :=
  let digits := match s with
    | c :: rest => if c = '+' then rest else s
    | [] => s
  if digits = [] then none
  else if digits.all (fun c => 48 ≤ c.toNat && c.toNat ≤ 57) then
    let v := digits.foldl (fun a c => a * 10 + (c.toNat - 48)) 0
    if v < 2 ^ 64 then some v else none
  else none

/-- Embedding of `Event::update_field` (sse.rs lines 67-93). -/
def Event.update_field (e : Event) (name value : List Char) : Event :=
  if name = "event".data then { e with type_ := some value }
  else if name = "data".data then
    { e with data := some (match e.data with
        | some d => d ++ '\n' :: value
        | none => value) }
  else if name = "id".data then { e with id := some value }
  else if name = "retry".data then
    match parseU64 value with
    | some ms => { e with retry := some ms }
    | none => e
  else e

/-- Embedding of `str::split('\n')`: split into parts at every newline. -/
def splitNl : List Char → List (List Char)
  | [] => [[]]
  | c :: rest =>
    match splitNl rest with
    | h :: t => if c = '\n' then [] :: h :: t else (c :: h) :: t
    | [] => [[c]]

/-- Decimal rendering of a natural number, written with explicit fuel so
that it reduces inside the kernel; `fuel ≥ n` always suffices. -/
def natToCharsF : Nat → Nat → List Char
  | 0, n => [Char.ofNat (48 + n)]
  | fuel + 1, n =>
    if n < 10 then [Char.ofNat (48 + n)]
    else natToCharsF fuel (n / 10) ++ [Char.ofNat (48 + n % 10)]

/-- Decimal rendering of a natural number, as the `Display` implementation
used by `writeln!(out, "retry: {}", retry.as_millis())` produces it. -/
def natToChars (n : Nat) : List Char := natToCharsF n n

/-- Embedding of `Event::write_to` (sse.rs lines 95-125); produces the
characters written: one line per present field (data split at embedded
newlines), then the retry line, then a blank line. -/
def Event.write_to (e : Event) : List Char :=
  let ls : List Line :=
    (match e.type_ with
      | some v => [Line.field ("event".data) v]
      | none => [])
    ++ (match e.data with
      | some v => (splitNl v).map (fun s => Line.field ("data".data) s)
      | none => [])
    ++ (match e.id with
      | some v => [Line.field ("id".data) v]
      | none => [])
  ((ls.map (fun l => l.write_to ++ ['\n'])).flatten)
  ++ (match e.retry with
      | some ms => "retry: ".data ++ natToChars ms ++ ['\n']
      | none => [])
  ++ ['\n']

/-! ## The event iterator (sse.rs, `EventIterator`) -/

/-- One step of the line scanner inside `EventIterator::next`
(sse.rs lines 148-155): find the first CR or LF, return the text before
it and the remainder after the terminator, consuming CRLF as a single
terminator.  `none` when no terminator occurs. -/
def splitLine : List Char → Option (List Char × List Char)
  | [] => none
  | c :: rest =>
    if c = '\n' then some ([], rest)
    else if c = '\r' then
      match rest with
      | [] => some ([], [])
      | d :: rest2 => if d = '\n' then some ([], rest2) else some ([], d :: rest2)
    else (splitLine rest).map (fun p => (c :: p.1, p.2))

/-- Fueled loop of `EventIterator::next` (sse.rs lines 147-167); every
iteration consumes at least one character, so `fuel > data.length`
always suffices. -/
def runIterF : Nat → Event → List Char → List Event × Event × List Char
  | 0, ev, data => ([], ev, data)
  | fuel + 1, ev, data =>
    match splitLine data with
    | none => ([], ev, data)
    | some (line, rem) =>
      match Line.from_str line with
      | Line.comment _ => runIterF fuel ev rem
      | Line.field n v => runIterF fuel (ev.update_field n v) rem
      | Line.empty =>
        if ev = Event.empty then runIterF fuel ev rem
        else
          let r := runIterF fuel Event.empty rem
          (ev :: r.1, r.2.1, r.2.2)

/-- Embedding of the full drain of `EventIterator` (sse.rs lines 147-167):
returns the events dispatched in order, the partially accumulated event,
and the unconsumed trailing text (no terminator yet). -/
def runIter (ev : Event) (data : List Char) : List Event × Event × List Char :=
  runIterF (data.length + 1) ev data

/-! ## UTF-8 decoding (the behaviour of `[u8]::utf8_chunks().next()` used
by `EventReader::next_events`) -/

/-- Is `b` a UTF-8 continuation byte. -/
def isCont (b : Nat) : Prop := 128 ≤ b ∧ b ≤ 191

instance (b : Nat) : Decidable (isCont b) := by unfold isCont; infer_instance

/-- Valid second byte for a three-byte sequence with lead byte `b`. -/
def utf8Valid2 (b b2 : Nat) : Prop :=
  if b = 224 then 160 ≤ b2 ∧ b2 ≤ 191
  else if b = 237 then 128 ≤ b2 ∧ b2 ≤ 159
  else 128 ≤ b2 ∧ b2 ≤ 191

instance (b b2 : Nat) : Decidable (utf8Valid2 b b2) := by
  unfold utf8Valid2; infer_instance

/-- Valid second byte for a four-byte sequence with lead byte `b`. -/
def utf8Valid2F (b b2 : Nat) : Prop :=
  if b = 240 then 144 ≤ b2 ∧ b2 ≤ 191
  else if b = 244 then 128 ≤ b2 ∧ b2 ≤ 143
  else 128 ≤ b2 ∧ b2 ≤ 191

instance (b b2 : Nat) : Decidable (utf8Valid2F b b2) := by
  unfold utf8Valid2F; infer_instance

/-- First-chunk UTF-8 decomposition, as produced by Rust's
`utf8_chunks().next()`: the decoded maximal valid prefix, the first
invalid segment (the trailing incomplete sequence, or the malformed
bytes per the maximal-subpart rule), and the bytes after that segment. -/
def utf8Chunk : List Nat → List Char × List Nat × List Nat
  | [] => ([], [], [])
  | b :: rest =>
    if b < 128 then
      let r := utf8Chunk rest
      (Char.ofNat b :: r.1, r.2.1, r.2.2)
    else if 194 ≤ b ∧ b ≤ 223 then
      match rest with
      | [] => ([], [b], [])
      | b2 :: rest2 =>
        if isCont b2 then
          let r := utf8Chunk rest2
          (Char.ofNat ((b - 192) * 64 + (b2 - 128)) :: r.1, r.2.1, r.2.2)
        else ([], [b], b2 :: rest2)
    else if 224 ≤ b ∧ b ≤ 239 then
      match rest with
      | [] => ([], [b], [])
      | b2 :: rest2 =>
        if utf8Valid2 b b2 then
          match rest2 with
          | [] => ([], [b, b2], [])
          | b3 :: rest3 =>
            if isCont b3 then
              let r := utf8Chunk rest3
              (Char.ofNat ((b - 224) * 4096 + (b2 - 128) * 64 + (b3 - 128)) :: r.1,
                r.2.1, r.2.2)
            else ([], [b, b2], b3 :: rest3)
        else ([], [b], b2 :: rest2)
    else if 240 ≤ b ∧ b ≤ 244 then
      match rest with
      | [] => ([], [b], [])
      | b2 :: rest2 =>
        if utf8Valid2F b b2 then
          match rest2 with
          | [] => ([], [b, b2], [])
          | b3 :: rest3 =>
            if isCont b3 then
              match rest3 with
              | [] => ([], [b, b2, b3], [])
              | b4 :: rest4 =>
                if isCont b4 then
                  let r := utf8Chunk rest4
                  (Char.ofNat ((b - 240) * 262144 + (b2 - 128) * 4096
                      + (b3 - 128) * 64 + (b4 - 128)) :: r.1, r.2.1, r.2.2)
                else ([], [b, b2, b3], b4 :: rest4)
            else ([], [b, b2], b3 :: rest3)
        else ([], [b], b2 :: rest2)
    else ([], [b], rest)

/-- UTF-8 encoding of one character. -/
def charToBytes (c : Char) : List Nat :=
  let n := c.toNat
  if n < 128 then [n]
  else if n < 2048 then [192 + n / 64, 128 + n % 64]
  else if n < 65536 then [224 + n / 4096, 128 + n / 64 % 64, 128 + n % 64]
  else [240 + n / 262144, 128 + n / 4096 % 64, 128 + n / 64 % 64, 128 + n % 64]

/-- UTF-8 encoding of a character list. -/
def charsToBytes (l : List Char) : List Nat := (l.map charToBytes).flatten

/-- The UTF-8 bytes of a string literal. -/
def strBytes (s : String) : List Nat := charsToBytes s.data

/-! ## The chunk reader (sse.rs, `EventReader`) -/

/-- Embedding of `EventReader`: the pending partially-built event and the
carried-over byte suffix.  (The `prefix` buffer of the Rust struct is
cleared and rebuilt from `suffix` on every call, so it carries no state
of its own between calls.) -/
structure EventReader where
  event : Event := Event.empty
  suffix : List Nat := []
deriving DecidableEq, Repr

/-- Embedding of one call to `EventReader::next_events`
(sse.rs lines 184-214) with the returned iterator drained to exhaustion
and dropped (sse.rs lines 217-231), which is how the proxy uses it:
the carried suffix is prepended; the first UTF-8 chunk is decoded; if the
valid and invalid parts do not cover the whole input the call fails;
otherwise the valid text is parsed and the new suffix is the unconsumed
trailing text re-encoded followed by the invalid trailing bytes. -/
def EventReader.next_events (r : EventReader) (bytes : List Nat) :
    Option (List Event × EventReader) :=
  let all := r.suffix ++ bytes
  let c := utf8Chunk all
  if (charsToBytes c.1).length + c.2.1.length ≠ all.length then none
  else
    let p := runIter r.event c.1
    some (p.1, ⟨p.2.1, charsToBytes p.2.2 ++ c.2.1⟩)

/-- Feed a sequence of chunks through an `EventReader`, concatenating the
dispatched events across calls. -/
def feedAll (r : EventReader) : List (List Nat) → Option (List Event × EventReader)
  | [] => some ([], r)
  | bs :: rest =>
    match r.next_events bs with
    | none => none
    | some (evs, r2) =>
      match feedAll r2 rest with
      | none => none
      | some (evs2, r3) => some (evs ++ evs2, r3)

/-! ## The OpenAI API types (openai/api.rs) -/

/-- Embedding of `Message<'a>` from api.rs. -/
structure Message where
  role : List Char
  content : List Char
deriving DecidableEq, Repr

/-- Embedding of `Request<'a>` from api.rs. -/
structure ApiRequest where
  model : List Char
  messages : List Message
  stream : Option Bool
deriving DecidableEq, Repr

/-- Embedding of `Delta<'a>` from api.rs. -/
structure Delta where
  content : Option (List Char) := none
  role : Option (List Char) := none
deriving DecidableEq, Repr

/-- Embedding of `StreamChoice<'a>` from api.rs. -/
structure StreamChoice where
  delta : Delta
  index : Option Nat := none
  finish_reason : Option (List Char) := none
deriving DecidableEq, Repr

/-- Embedding of `ResponseStreamChunk<'a>` from api.rs. -/
structure ResponseStreamChunk where
  choices : List StreamChoice
deriving DecidableEq, Repr

/-! ## The reverse proxy (openai/proxy.rs) -/

/-- Embedding of `ServerKind` from openai/proxy.rs. -/
inductive ServerKind where
  | LlamaCpp
  | OpenAi
deriving DecidableEq, Repr

/-- The per-choice rewrite applied inside `convert_response`
(openai/proxy.rs lines 327-331): a choice with a finish reason and no
delta role gets its delta role set to "assistant". -/
def fixChoice (c : StreamChoice) : StreamChoice :=
  if c.finish_reason.isSome ∧ c.delta.role.isNone then
    { c with delta := { c.delta with role := some ("assistant".data) } }
  else c

/-- The stream-chunk conversion of `convert_response`
(openai/proxy.rs lines 326-332): every choice is passed through
`fixChoice` and the chunk is rebuilt from the choices alone. -/
def convertChunk (m : ResponseStreamChunk) : ResponseStreamChunk :=
  ⟨m.choices.map fixChoice⟩

/-- The per-event body of the streaming loop in `convert_response`
(openai/proxy.rs lines 312-341).  JSON decoding and encoding of the
chunk payload (serde_json) are abstracted as the `decode` and `encode`
parameters.  Result: `Except.error` when the data fails to decode
(the `?` on `serde_json::from_str`), `Except.ok none` when the event is
skipped (`continue`), `Except.ok (some out)` when `out` is written. -/
def processEvent (decode : List Char → Option ResponseStreamChunk)
    (encode : ResponseStreamChunk → List Char) (ev : Event) :
    Except Unit (Option Event) :=
  match ev.data with
  | none => Except.ok none
  | some d =>
    if d = "[DONE]".data then Except.ok (some { data := some d })
    else
      match decode d with
      | none => Except.error ()
      | some msg => Except.ok (some { data := some (encode (convertChunk msg)) })

/-- The outgoing-message construction of `convert_request`
(openai/proxy.rs lines 247-260): optional system message prepended,
client messages in order, model set to the configured model string,
stream forced to a concrete boolean.  Returns the outgoing request and
the streaming flag carried forward. -/
def convertRequestBody (system_prompt : Option (List Char)) (model : List Char)
    (msg : ApiRequest) : ApiRequest × Bool :=
  let messages :=
    (match system_prompt with
      | some p => [{ role := "system".data, content := p }]
      | none => []) ++ msg.messages
  let streaming := msg.stream.getD false
  ({ model := model, messages := messages, stream := some streaming }, streaming)

/-- A request URI, modelled with the components kept by `http::Uri`:
scheme, authority and path-and-query (split here into path and query). -/
structure UriModel where
  scheme : Option (List Char) := none
  authority : Option (List Char) := none
  path : List Char := []
  query : Option (List Char) := none
deriving DecidableEq, Repr

/-- The backend completion path per server kind
(openai/proxy.rs lines 270-273). -/
def completionPath : ServerKind → List Char
  | ServerKind.LlamaCpp => "/chat/completions".data
  | ServerKind.OpenAi => "/v1/chat/completions".data

/-- The inbound-path guard of `convert_request`
(openai/proxy.rs lines 240-242). -/
def inboundPathOk (uri : UriModel) : Bool := uri.path == "/chat/completions".data

/-- The URI rewrite of `convert_request` (openai/proxy.rs lines 268-275):
`parts.path_and_query` is replaced wholesale by the static
kind-specific path, so the rewritten URI has that path and no query;
scheme and authority are taken from the inbound URI unchanged. -/
def convertRequestUri (kind : ServerKind) (uri : UriModel) : UriModel :=
  { uri with path := completionPath kind, query := none }

/-- An HTTP response as far as the top-level error policy observes it. -/
structure ResponseModel where
  status : Nat
  contentType : Option (List Char) := none
  body : List Char := []
deriving DecidableEq, Repr

/-- Embedding of `ReverseProxy::forward` (openai/proxy.rs lines 218-232):
the sequential composition convert_request, send, convert_response,
with each stage abstracted by its result. -/
def forward {α β : Type} (convert_request : Except (List Char) α)
    (send : α → Except (List Char) β)
    (convert_response : β → Except (List Char) ResponseModel) :
    Except (List Char) ResponseModel := do
  let a ← convert_request
  let b ← send a
  convert_response b

/-- The error response built in `<ReverseProxy as Service>::call`
(openai/proxy.rs lines 200-207). -/
def errorResponse (e : List Char) : ResponseModel :=
  { status := 500, contentType := some ("text/plain".data), body := e }

/-- Embedding of `<ReverseProxy as Service>::call`
(openai/proxy.rs lines 195-210): the result of `forward` is returned on
success, and any error is converted into a 500 text/plain response,
itself returned as a success. -/
def call {α β : Type} (convert_request : Except (List Char) α)
    (send : α → Except (List Char) β)
    (convert_response : β → Except (List Char) ResponseModel) :
    Except (List Char) ResponseModel :=
  match forward convert_request send convert_response with
  | Except.ok res => Except.ok res
  | Except.error e => Except.ok (errorResponse e)

/-! ## The CONNECT tunnel handshake (http_util/proxy.rs) -/

/-- How the handshake terminates. -/
inductive HandshakeResult where
  | ok
  | badFraming
  | badUtf8
  | badProto
  | badStatus
  | ioError
deriving DecidableEq, Repr

/-- The byte-by-byte read loop of `handshake`
(http_util/proxy.rs lines 22-36), reading from the byte stream `input`
(running out of bytes models an I/O failure of `read_u8`): push each
byte, count LF bytes, and fail when a byte after the first LF is
neither LF nor CR.  Returns the accumulated response head. -/
def readHead (input : List Nat) (lf : Nat) (acc : List Nat) :
    Except HandshakeResult (List Nat) :=
  if lf ≥ 2 then Except.ok acc
  else
    match input with
    | [] => Except.error HandshakeResult.ioError
    | b :: rest =>
      if b = 10 then readHead rest (lf + 1) (acc ++ [b])
      else if lf ≠ 0 ∧ b ≠ 13 then Except.error HandshakeResult.badFraming
      else readHead rest lf (acc ++ [b])

/-- Rust `u8::is_ascii_whitespace` on a decoded character. -/
def isAsciiWs (c : Char) : Bool :=
  c.toNat = 32 || c.toNat = 9 || c.toNat = 10 || c.toNat = 12 || c.toNat = 13

/-- Accumulating worker for `splitWs`. -/
def splitWsAux : List Char → List Char → List (List Char)
  | [], cur => if cur = [] then [] else [cur.reverse]
  | c :: rest, cur =>
    if isAsciiWs c then
      if cur = [] then splitWsAux rest []
      else cur.reverse :: splitWsAux rest []
    else splitWsAux rest (c :: cur)

/-- Embedding of `str::split_ascii_whitespace`: the list of maximal
whitespace-free tokens. -/
def splitWs (l : List Char) : List (List Char) := splitWsAux l []

/-- Embedding of the response processing of `handshake`
(http_util/proxy.rs lines 20-47): read the head byte by byte, decode it
as UTF-8 (`String::from_utf8`), and require the first two
whitespace-separated tokens to be "HTTP/1.1" and "200". -/
def handshake (input : List Nat) : HandshakeResult :=
  match readHead input 0 [] with
  | Except.error e => e
  | Except.ok head =>
    let c := utf8Chunk head
    if c.2.1 ≠ [] ∨ c.2.2 ≠ [] then HandshakeResult.badUtf8
    else
      match splitWs c.1 with
      | [] => HandshakeResult.badProto
      | [t1] =>
        if t1 ≠ "HTTP/1.1".data then HandshakeResult.badProto
        else HandshakeResult.badStatus
      | t1 :: t2 :: _ =>
        if t1 ≠ "HTTP/1.1".data then HandshakeResult.badProto
        else if t2 ≠ "200".data then HandshakeResult.badStatus
        else HandshakeResult.ok

/-! Views of the three line groups and the retry line of
`Event::write_to`, and of the field updates the parser applies to them;
used to state the round-trip lemmas. -/

/-- The `event:` lines of `Event::write_to`. -/
def typeLines (o : Option (List Char)) : List Line :=
  match o with
  | some v => [Line.field ("event".data) v]
  | none => []

/-- The `data:` lines of `Event::write_to`. -/
def dataLines (o : Option (List Char)) : List Line :=
  match o with
  | some v => (splitNl v).map (fun s => Line.field ("data".data) s)
  | none => []

/-- The `id:` lines of `Event::write_to`. -/
def idLines (o : Option (List Char)) : List Line :=
  match o with
  | some v => [Line.field ("id".data) v]
  | none => []

/-- The retry line of `Event::write_to`. -/
def retryChars (o : Option Nat) : List Char :=
  match o with
  | some ms => "retry: ".data ++ natToChars ms ++ ['\n']
  | none => []

/-- Setting the type field when present. -/
def setType (ev : Event) (o : Option (List Char)) : Event :=
  match o with
  | some v => { ev with type_ := some v }
  | none => ev

/-- Setting the data field when present. -/
def setData (ev : Event) (o : Option (List Char)) : Event :=
  match o with
  | some v => { ev with data := some v }
  | none => ev

/-- Setting the id field when present. -/
def setId (ev : Event) (o : Option (List Char)) : Event :=
  match o with
  | some v => { ev with id := some v }
  | none => ev

/-- Setting the retry field when present. -/
def setRetry (ev : Event) (o : Option Nat) : Event :=
  match o with
  | some ms => { ev with retry := some ms }
  | none => ev

/-! ## Basic lemmas -/

theorem splitLine_length {data l rem : List Char}
    (h : splitLine data = some (l, rem)) : rem.length < data.length := by
  induction data generalizing l rem with
  | nil => simp [splitLine] at h
  | cons c rest ih =>
    simp only [splitLine] at h
    by_cases hn : c = '\n'
    · simp only [if_pos hn, Option.some.injEq, Prod.mk.injEq] at h
      obtain ⟨-, h2⟩ := h
      subst h2
      simp only [List.length_cons]
      omega
    · by_cases hr : c = '\r'
      · simp only [if_neg hn, if_pos hr] at h
        cases rest with
        | nil =>
          simp only [Option.some.injEq, Prod.mk.injEq] at h
          obtain ⟨-, h2⟩ := h
          subst h2
          simp only [List.length_cons, List.length_nil]
          omega
        | cons d rest2 =>
          by_cases hd : d = '\n'
          · simp only [if_pos hd, Option.some.injEq, Prod.mk.injEq] at h
            obtain ⟨-, h2⟩ := h
            subst h2
            simp only [List.length_cons]
            omega
          · simp only [if_neg hd, Option.some.injEq, Prod.mk.injEq] at h
            obtain ⟨-, h2⟩ := h
            subst h2
            simp only [List.length_cons]
            omega
      · simp only [if_neg hn, if_neg hr] at h
        obtain ⟨⟨l2, rem2⟩, hsl, hp⟩ := Option.map_eq_some'.mp h
        simp only [Prod.mk.injEq] at hp
        obtain ⟨-, h2⟩ := hp
        subst h2
        have := ih hsl
        simp only [List.length_cons]
        omega

theorem natToCharsF_fuel :
    ∀ fuel n : Nat, n ≤ fuel → natToCharsF fuel n = natToChars n := by
  have key : ∀ f1 f2 n : Nat, n ≤ f1 → n ≤ f2 →
      natToCharsF f1 n = natToCharsF f2 n := by
    intro f1
    induction f1 with
    | zero =>
      intro f2 n h1 _
      interval_cases n
      cases f2 <;> simp [natToCharsF]
    | succ f ih =>
      intro f2 n h1 h2
      cases f2 with
      | zero =>
        interval_cases n
        simp [natToCharsF]
      | succ g =>
        simp only [natToCharsF]
        by_cases hn : n < 10
        · simp [hn]
        · simp only [if_neg hn]
          have hd : n / 10 ≤ f := by omega
          have hd2 : n / 10 ≤ g := by omega
          rw [ih g (n / 10) hd hd2]
  intro fuel n h
  exact key fuel n n h le_rfl

theorem runIterF_fuel :
    ∀ f1 f2 : Nat, ∀ ev : Event, ∀ data : List Char,
      data.length < f1 → data.length < f2 →
      runIterF f1 ev data = runIterF f2 ev data := by
  intro f1
  induction f1 with
  | zero => intro f2 ev data h1; omega
  | succ f ih =>
    intro f2 ev data h1 h2
    cases f2 with
    | zero => omega
    | succ g =>
      simp only [runIterF]
      cases hs : splitLine data with
      | none => rfl
      | some p =>
        obtain ⟨line, rem⟩ := p
        dsimp only
        have hlt := splitLine_length hs
        have hr1 : rem.length < f := by omega
        have hr2 : rem.length < g := by omega
        cases hline : Line.from_str line with
        | comment t => exact ih g ev rem hr1 hr2
        | field n v => exact ih g (ev.update_field n v) rem hr1 hr2
        | empty =>
          by_cases he : ev = Event.empty
          · simp only [if_pos he]
            exact ih g ev rem hr1 hr2
          · simp only [if_neg he]
            rw [ih g Event.empty rem hr1 hr2]

/-- `runIter` unfolds one step whenever a complete line is available. -/
theorem runIter_step {data line rem : List Char} (ev : Event)
    (hs : splitLine data = some (line, rem)) :
    runIter ev data =
      match Line.from_str line with
      | Line.comment _ => runIter ev rem
      | Line.field n v => runIter (ev.update_field n v) rem
      | Line.empty =>
        if ev = Event.empty then runIter ev rem
        else
          let r := runIter Event.empty rem
          (ev :: r.1, r.2.1, r.2.2) := by
  have hlt := splitLine_length hs
  show runIterF (data.length + 1) ev data = _
  simp only [runIterF, hs]
  cases hline : Line.from_str line with
  | comment t => exact runIterF_fuel _ _ _ _ (by omega) (by omega)
  | field n v => exact runIterF_fuel _ _ _ _ (by omega) (by omega)
  | empty =>
    by_cases he : ev = Event.empty
    · simp only [if_pos he]
      exact runIterF_fuel _ _ _ _ (by omega) (by omega)
    · simp only [if_neg he]
      rw [runIterF_fuel data.length (rem.length + 1) Event.empty rem (by omega) (by omega)]
      rfl

/-- `runIter` on terminator-free text consumes nothing. -/
theorem runIter_none {data : List Char} (ev : Event)
    (hs : splitLine data = none) : runIter ev data = ([], ev, data) := by
  show runIterF (data.length + 1) ev data = _
  simp only [runIterF, hs]

/-! Sanity checks mirroring the unit tests at the bottom of sse.rs. -/

example :
    (runIter Event.empty ("data\n\ndata\ndata\n\ndata:\n".data)).1 =
      [{ data := some [] }, { data := some ['\n'] }] := by decide

example :
    (runIter Event.empty
      (": test stream\n\ndata: first event\nid: 1\n\ndata:second event\nid\n\ndata:  third event\n".data)).1 =
      [{ data := some "first event".data, id := some "1".data },
       { data := some "second event".data, id := some [] }] := by decide

example :
    (runIter Event.empty ("data: YHOO\ndata: +2\ndata: 10\n\n".data)).1 =
      [{ data := some "YHOO\n+2\n10".data }] := by decide

example :
    feedAll {} [strBytes "event: push\ndata", strBytes ": 123456\nid: 1\n\n"] =
      some ([{ type_ := some "push".data, data := some "123456".data, id := some "1".data }],
        {}) := by decide

example :
    feedAll {} [[100, 97, 116, 97, 58, 32, 208, 144, 208], [145, 208, 146, 10, 10]] =
      some ([{ data := some "АБВ".data }], {}) := by decide

/-! ## Line terminator lemmas -/

theorem splitLine_lf (l rem : List Char) (hn : '\n' ∉ l) (hr : '\r' ∉ l) :
    splitLine (l ++ '\n' :: rem) = some (l, rem) := by
  induction l with
  | nil => simp [splitLine]
  | cons c l2 ih =>
    have hcn : c ≠ '\n' := fun h => hn (h ▸ List.mem_cons_self c l2)
    have hcr : c ≠ '\r' := fun h => hr (h ▸ List.mem_cons_self c l2)
    have hn2 : '\n' ∉ l2 := fun h => hn (List.mem_cons_of_mem c h)
    have hr2 : '\r' ∉ l2 := fun h => hr (List.mem_cons_of_mem c h)
    simp only [List.cons_append, splitLine, if_neg hcn, if_neg hcr, List.append_eq]
    rw [ih hn2 hr2]
    rfl

theorem splitLine_crlf (l rem : List Char) (hn : '\n' ∉ l) (hr : '\r' ∉ l) :
    splitLine (l ++ '\r' :: '\n' :: rem) = some (l, rem) := by
  induction l with
  | nil => simp [splitLine]
  | cons c l2 ih =>
    have hcn : c ≠ '\n' := fun h => hn (h ▸ List.mem_cons_self c l2)
    have hcr : c ≠ '\r' := fun h => hr (h ▸ List.mem_cons_self c l2)
    have hn2 : '\n' ∉ l2 := fun h => hn (List.mem_cons_of_mem c h)
    have hr2 : '\r' ∉ l2 := fun h => hr (List.mem_cons_of_mem c h)
    simp only [List.cons_append, splitLine, if_neg hcn, if_neg hcr, List.append_eq]
    rw [ih hn2 hr2]
    rfl

theorem splitLine_cr (l rem : List Char) (hn : '\n' ∉ l) (hr : '\r' ∉ l)
    (hd : rem.head? ≠ some '\n') :
    splitLine (l ++ '\r' :: rem) = some (l, rem) := by
  induction l with
  | nil =>
    cases rem with
    | nil => simp [splitLine]
    | cons d rem2 =>
      have hdn : d ≠ '\n' := by simpa using hd
      simp [splitLine, hdn]
  | cons c l2 ih =>
    have hcn : c ≠ '\n' := fun h => hn (h ▸ List.mem_cons_self c l2)
    have hcr : c ≠ '\r' := fun h => hr (h ▸ List.mem_cons_self c l2)
    have hn2 : '\n' ∉ l2 := fun h => hn (List.mem_cons_of_mem c h)
    have hr2 : '\r' ∉ l2 := fun h => hr (List.mem_cons_of_mem c h)
    simp only [List.cons_append, splitLine, if_neg hcn, if_neg hcr, List.append_eq]
    rw [ih hn2 hr2]
    rfl

theorem splitLine_noterm (l : List Char) (hn : '\n' ∉ l) (hr : '\r' ∉ l) :
    splitLine l = none := by
  induction l with
  | nil => rfl
  | cons c l2 ih =>
    have hcn : c ≠ '\n' := fun h => hn (h ▸ List.mem_cons_self c l2)
    have hcr : c ≠ '\r' := fun h => hr (h ▸ List.mem_cons_self c l2)
    have hn2 : '\n' ∉ l2 := fun h => hn (List.mem_cons_of_mem c h)
    have hr2 : '\r' ∉ l2 := fun h => hr (List.mem_cons_of_mem c h)
    simp only [splitLine, if_neg hcn, if_neg hcr, ih hn2 hr2, Option.map_none']

/-! ## Claim C1 -/

/-- C1: refuted by the code as written — splitting a valid SSE stream
between the CR and the LF of a CRLF terminator changes the dispatched
events.  Feeding "data: a\r" then "\ndata: b\n\n" dispatches two events
(the lone CR ends the first line and the following LF is then seen as an
empty line, dispatching early), while feeding the concatenated stream in
one call dispatches the single event with data "a\nb".  This theorem
evaluates `EventReader::next_events` on that failing input both ways. -/
theorem sse_split_crlf_divergence :
    (feedAll {} [strBytes "data: a\r", strBytes "\ndata: b\n\n"]).map Prod.fst
      = some [{ data := some "a".data }, { data := some "b".data }]
    ∧ (feedAll {} [strBytes "data: a\r\ndata: b\n\n"]).map Prod.fst
      = some [{ data := some "a\nb".data }]
    ∧ ([{ data := some "a".data }, { data := some "b".data }] : List Event)
      ≠ [{ data := some "a\nb".data }] := by
  refine ⟨by decide, by decide, by decide⟩

/-! ## Claim C2 -/

/-- C2 counterexample: the claim says a bare CR is not a line terminator,
so "data: a\rdata: b" would be a single field line and the stream
"data: a\rdata: b\n\n" would dispatch the event with data "a\rdata: b".
The parser in fact splits at the bare CR and dispatches the event with
data "a\nb". -/
theorem sse_bare_cr_terminates_line :
    (runIter Event.empty ("data: a\rdata: b\n\n".data)).1
      = [{ data := some "a\nb".data }]
    ∧ ({ data := some "a\nb".data } : Event)
      ≠ { data := some "a\rdata: b".data } := by
  refine ⟨by decide, by decide⟩

/-- C2 amended: the parser splits the decoded text into lines at LF, at
CRLF (consumed as one terminator), and also at a bare CR not followed by
LF; text with neither CR nor LF contains no complete line. -/
theorem sse_line_terminators :
    ∀ (l rem : List Char), '\n' ∉ l → '\r' ∉ l →
      splitLine (l ++ '\n' :: rem) = some (l, rem)
      ∧ splitLine (l ++ '\r' :: '\n' :: rem) = some (l, rem)
      ∧ (rem.head? ≠ some '\n' → splitLine (l ++ '\r' :: rem) = some (l, rem))
      ∧ splitLine l = none := by
  intro l rem hn hr
  exact ⟨splitLine_lf l rem hn hr, splitLine_crlf l rem hn hr,
    fun hd => splitLine_cr l rem hn hr hd, splitLine_noterm l hn hr⟩

/-- Witness for `sse_line_terminators` at the line "data: a" and
remainder "x". -/
theorem sse_line_terminators_witness :
    splitLine ("data: a".data ++ '\n' :: "x".data) = some ("data: a".data, "x".data)
    ∧ splitLine ("data: a".data ++ '\r' :: '\n' :: "x".data)
      = some ("data: a".data, "x".data)
    ∧ (("x".data : List Char).head? ≠ some '\n' →
        splitLine ("data: a".data ++ '\r' :: "x".data) = some ("data: a".data, "x".data))
    ∧ splitLine ("data: a".data) = none := by
  exact sse_line_terminators ("data: a".data) ("x".data) (by decide) (by decide)

/-! ## Character and UTF-8 lemmas -/

theorem char_toNat_ofNat (n : Nat) (h : n.isValidChar) :
    (Char.ofNat n).toNat = n := by
  unfold Char.ofNat
  rw [dif_pos h]
  rfl

theorem char_valid_nat (c : Char) : Nat.isValidChar c.toNat := by
  have := c.valid
  exact this

theorem char_ofNat_toNat (c : Char) : Char.ofNat c.toNat = c := by
  have h : Nat.isValidChar c.toNat := char_valid_nat c
  apply Char.eq_of_val_eq
  have h2 := char_toNat_ofNat c.toNat h
  have h3 : (Char.ofNat c.toNat).val.toNat = c.val.toNat := h2
  exact UInt32.toNat.inj h3

theorem char_range (c : Char) :
    c.toNat < 55296 ∨ (57344 ≤ c.toNat ∧ c.toNat < 1114112) := by
  rcases char_valid_nat c with h | h
  · left; exact h
  · right; exact ⟨h.1, h.2⟩

/-- Decoding the first UTF-8 chunk of an encoded character followed by
anything decodes that character first and continues with the rest. -/
theorem utf8Chunk_cons (c : Char) (rest : List Nat) :
    utf8Chunk (charToBytes c ++ rest)
      = (c :: (utf8Chunk rest).1, (utf8Chunk rest).2.1, (utf8Chunk rest).2.2) := by
  have hval := char_range c
  have hofn := char_ofNat_toNat c
  by_cases h1 : c.toNat < 128
  · have hb : charToBytes c = [c.toNat] := by
      unfold charToBytes
      rw [if_pos h1]
    rw [hb, List.cons_append, List.nil_append]
    rw [utf8Chunk.eq_def]
    dsimp only
    rw [if_pos h1, hofn]
  · by_cases h2 : c.toNat < 2048
    · have hb : charToBytes c = [192 + c.toNat / 64, 128 + c.toNat % 64] := by
        unfold charToBytes
        rw [if_neg h1, if_pos h2]
      rw [hb, List.cons_append, List.cons_append, List.nil_append]
      rw [utf8Chunk.eq_def]
      dsimp only
      rw [if_neg (by omega), if_pos (by omega : 194 ≤ 192 + c.toNat / 64 ∧ 192 + c.toNat / 64 ≤ 223)]
      rw [if_pos (show isCont (128 + c.toNat % 64) by unfold isCont; omega)]
      have harg : (192 + c.toNat / 64 - 192) * 64 + (128 + c.toNat % 64 - 128) = c.toNat := by
        omega
      rw [harg, hofn]
    · by_cases h3 : c.toNat < 65536
      · have hb : charToBytes c =
            [224 + c.toNat / 4096, 128 + c.toNat / 64 % 64, 128 + c.toNat % 64] := by
          unfold charToBytes
          rw [if_neg h1, if_neg (by omega), if_pos h3]
        rw [hb, List.cons_append, List.cons_append, List.cons_append, List.nil_append]
        rw [utf8Chunk.eq_def]
        dsimp only
        rw [if_neg (by omega),
          if_neg (by omega : ¬(194 ≤ 224 + c.toNat / 4096 ∧ 224 + c.toNat / 4096 ≤ 223)),
          if_pos (by omega : 224 ≤ 224 + c.toNat / 4096 ∧ 224 + c.toNat / 4096 ≤ 239)]
        rw [if_pos (show utf8Valid2 (224 + c.toNat / 4096) (128 + c.toNat / 64 % 64) by
          unfold utf8Valid2
          split_ifs <;> omega)]
        rw [if_pos (show isCont (128 + c.toNat % 64) by unfold isCont; omega)]
        have harg : (224 + c.toNat / 4096 - 224) * 4096
            + (128 + c.toNat / 64 % 64 - 128) * 64 + (128 + c.toNat % 64 - 128) = c.toNat := by
          omega
        rw [harg, hofn]
      · have h4 : c.toNat < 1114112 := by omega
        have hb : charToBytes c = [240 + c.toNat / 262144, 128 + c.toNat / 4096 % 64,
            128 + c.toNat / 64 % 64, 128 + c.toNat % 64] := by
          unfold charToBytes
          rw [if_neg h1, if_neg (by omega), if_neg (by omega)]
        rw [hb, List.cons_append, List.cons_append, List.cons_append, List.cons_append,
          List.nil_append]
        rw [utf8Chunk.eq_def]
        dsimp only
        rw [if_neg (by omega),
          if_neg (by omega : ¬(194 ≤ 240 + c.toNat / 262144 ∧ 240 + c.toNat / 262144 ≤ 223)),
          if_neg (by omega : ¬(224 ≤ 240 + c.toNat / 262144 ∧ 240 + c.toNat / 262144 ≤ 239)),
          if_pos (by omega : 240 ≤ 240 + c.toNat / 262144 ∧ 240 + c.toNat / 262144 ≤ 244)]
        rw [if_pos (show utf8Valid2F (240 + c.toNat / 262144) (128 + c.toNat / 4096 % 64) by
          unfold utf8Valid2F
          split_ifs <;> omega)]
        rw [if_pos (show isCont (128 + c.toNat / 64 % 64) by unfold isCont; omega)]
        rw [if_pos (show isCont (128 + c.toNat % 64) by unfold isCont; omega)]
        have harg : (240 + c.toNat / 262144 - 240) * 262144
            + (128 + c.toNat / 4096 % 64 - 128) * 4096
            + (128 + c.toNat / 64 % 64 - 128) * 64 + (128 + c.toNat % 64 - 128) = c.toNat := by
          omega
        rw [harg, hofn]

theorem charsToBytes_cons (c : Char) (t : List Char) :
    charsToBytes (c :: t) = charToBytes c ++ charsToBytes t := by
  simp [charsToBytes]

/-- Decoding the first UTF-8 chunk of encoded text followed by anything
decodes that text first and continues with the rest. -/
theorem utf8Chunk_text (t : List Char) (rest : List Nat) :
    utf8Chunk (charsToBytes t ++ rest)
      = (t ++ (utf8Chunk rest).1, (utf8Chunk rest).2.1, (utf8Chunk rest).2.2) := by
  induction t with
  | nil => simp [charsToBytes]
  | cons c t2 ih =>
    rw [charsToBytes_cons, List.append_assoc, utf8Chunk_cons, ih]
    simp

/-- A byte that can never start a UTF-8 sequence forms a one-byte invalid
segment. -/
theorem utf8Chunk_badLead (b : Nat) (rest : List Nat) (h : 245 ≤ b) :
    utf8Chunk (b :: rest) = ([], [b], rest) := by
  rw [utf8Chunk.eq_def]
  dsimp only
  rw [if_neg (by omega), if_neg (by omega), if_neg (by omega), if_neg (by omega)]

/-- A proper prefix of the encoding of a character is an incomplete
trailing sequence: the whole prefix becomes the invalid segment and
nothing remains. -/
theorem utf8Chunk_partial (c : Char) (k : Nat) (hk : 0 < k)
    (hlt : k < (charToBytes c).length) :
    utf8Chunk ((charToBytes c).take k) = ([], (charToBytes c).take k, []) := by
  have hval := char_range c
  by_cases h1 : c.toNat < 128
  · have hb : charToBytes c = [c.toNat] := by
      unfold charToBytes
      rw [if_pos h1]
    rw [hb] at hlt
    simp at hlt
    omega
  · by_cases h2 : c.toNat < 2048
    · have hb : charToBytes c = [192 + c.toNat / 64, 128 + c.toNat % 64] := by
        unfold charToBytes
        rw [if_neg h1, if_pos h2]
      rw [hb] at hlt ⊢
      simp only [List.length_cons, List.length_nil] at hlt
      have hk1 : k = 1 := by omega
      subst hk1
      simp only [List.take_succ_cons, List.take_zero]
      rw [utf8Chunk.eq_def]
      dsimp only
      rw [if_neg (by omega), if_pos (by omega : 194 ≤ 192 + c.toNat / 64 ∧ 192 + c.toNat / 64 ≤ 223)]
    · by_cases h3 : c.toNat < 65536
      · have hb : charToBytes c =
            [224 + c.toNat / 4096, 128 + c.toNat / 64 % 64, 128 + c.toNat % 64] := by
          unfold charToBytes
          rw [if_neg h1, if_neg (by omega), if_pos h3]
        rw [hb] at hlt ⊢
        simp only [List.length_cons, List.length_nil] at hlt
        have hk12 : k = 1 ∨ k = 2 := by omega
        rcases hk12 with hk1 | hk1
        all_goals subst hk1
        · simp only [List.take_succ_cons, List.take_zero]
          rw [utf8Chunk.eq_def]
          dsimp only
          rw [if_neg (by omega),
            if_neg (by omega : ¬(194 ≤ 224 + c.toNat / 4096 ∧ 224 + c.toNat / 4096 ≤ 223)),
            if_pos (by omega : 224 ≤ 224 + c.toNat / 4096 ∧ 224 + c.toNat / 4096 ≤ 239)]
        · simp only [List.take_succ_cons, List.take_zero]
          rw [utf8Chunk.eq_def]
          dsimp only
          rw [if_neg (by omega),
            if_neg (by omega : ¬(194 ≤ 224 + c.toNat / 4096 ∧ 224 + c.toNat / 4096 ≤ 223)),
            if_pos (by omega : 224 ≤ 224 + c.toNat / 4096 ∧ 224 + c.toNat / 4096 ≤ 239)]
          rw [if_pos (show utf8Valid2 (224 + c.toNat / 4096) (128 + c.toNat / 64 % 64) by
            unfold utf8Valid2
            split_ifs <;> omega)]
      · have h4 : c.toNat < 1114112 := by omega
        have hb : charToBytes c = [240 + c.toNat / 262144, 128 + c.toNat / 4096 % 64,
            128 + c.toNat / 64 % 64, 128 + c.toNat % 64] := by
          unfold charToBytes
          rw [if_neg h1, if_neg (by omega), if_neg (by omega)]
        rw [hb] at hlt ⊢
        simp only [List.length_cons, List.length_nil] at hlt
        have hk123 : k = 1 ∨ k = 2 ∨ k = 3 := by omega
        rcases hk123 with hk1 | hk1 | hk1
        all_goals subst hk1
        · simp only [List.take_succ_cons, List.take_zero]
          rw [utf8Chunk.eq_def]
          dsimp only
          rw [if_neg (by omega),
            if_neg (by omega : ¬(194 ≤ 240 + c.toNat / 262144 ∧ 240 + c.toNat / 262144 ≤ 223)),
            if_neg (by omega : ¬(224 ≤ 240 + c.toNat / 262144 ∧ 240 + c.toNat / 262144 ≤ 239)),
            if_pos (by omega : 240 ≤ 240 + c.toNat / 262144 ∧ 240 + c.toNat / 262144 ≤ 244)]
        · simp only [List.take_succ_cons, List.take_zero]
          rw [utf8Chunk.eq_def]
          dsimp only
          rw [if_neg (by omega),
            if_neg (by omega : ¬(194 ≤ 240 + c.toNat / 262144 ∧ 240 + c.toNat / 262144 ≤ 223)),
            if_neg (by omega : ¬(224 ≤ 240 + c.toNat / 262144 ∧ 240 + c.toNat / 262144 ≤ 239)),
            if_pos (by omega : 240 ≤ 240 + c.toNat / 262144 ∧ 240 + c.toNat / 262144 ≤ 244)]
          rw [if_pos (show utf8Valid2F (240 + c.toNat / 262144) (128 + c.toNat / 4096 % 64) by
            unfold utf8Valid2F
            split_ifs <;> omega)]
        · simp only [List.take_succ_cons, List.take_zero]
          rw [utf8Chunk.eq_def]
          dsimp only
          rw [if_neg (by omega),
            if_neg (by omega : ¬(194 ≤ 240 + c.toNat / 262144 ∧ 240 + c.toNat / 262144 ≤ 223)),
            if_neg (by omega : ¬(224 ≤ 240 + c.toNat / 262144 ∧ 240 + c.toNat / 262144 ≤ 239)),
            if_pos (by omega : 240 ≤ 240 + c.toNat / 262144 ∧ 240 + c.toNat / 262144 ≤ 244)]
          rw [if_pos (show utf8Valid2F (240 + c.toNat / 262144) (128 + c.toNat / 4096 % 64) by
            unfold utf8Valid2F
            split_ifs <;> omega)]
          rw [if_pos (show isCont (128 + c.toNat / 64 % 64) by unfold isCont; omega)]

/-! ## Claim C3 -/

/-- C3 counterexample: the claim says a complete set of malformed bytes
at the decode boundary fails the call with a decode error.  The byte 255
can never begin a UTF-8 sequence, so a chunk ending in it carries a
complete set of malformed bytes; yet the call succeeds and stores 255 as
the carried-over suffix.  Only invalid bytes followed by further bytes
fail the call. -/
theorem sse_trailing_malformed_no_error :
    EventReader.next_events {} [255]
      = some ([], { event := Event.empty, suffix := [255] })
    ∧ EventReader.next_events {} [255] ≠ none := by
  refine ⟨by decide, by decide⟩

/-- C3 amended: `next_events` decodes the chunk as UTF-8 up to the first
point of invalidity; the call fails with a decode error precisely when
the invalid bytes are followed by further bytes in the same call; any
trailing invalid segment — the start of a multi-byte sequence truncated
by the chunk boundary, or even completely malformed trailing bytes — is
stored as the new carried-over suffix and only the valid prefix is
parsed. -/
theorem sse_utf8_boundary_handling :
    (∀ (ev0 : Event) (t : List Char) (c : Char) (k : Nat),
      0 < k → k < (charToBytes c).length →
      EventReader.next_events ⟨ev0, []⟩ (charsToBytes t ++ (charToBytes c).take k)
        = some ((runIter ev0 t).1,
            ⟨(runIter ev0 t).2.1,
             charsToBytes (runIter ev0 t).2.2 ++ (charToBytes c).take k⟩))
    ∧ (∀ (ev0 : Event) (t : List Char) (b : Nat) (tail : List Nat),
      245 ≤ b → tail ≠ [] →
      EventReader.next_events ⟨ev0, []⟩ (charsToBytes t ++ b :: tail) = none)
    ∧ (∀ (ev0 : Event) (t : List Char) (b : Nat), 245 ≤ b →
      EventReader.next_events ⟨ev0, []⟩ (charsToBytes t ++ [b])
        = some ((runIter ev0 t).1,
            ⟨(runIter ev0 t).2.1, charsToBytes (runIter ev0 t).2.2 ++ [b]⟩)) := by
  refine ⟨?_, ?_, ?_⟩
  · intro ev0 t c k hk hlt
    simp only [EventReader.next_events, List.nil_append]
    rw [utf8Chunk_text, utf8Chunk_partial c k hk hlt]
    simp only [List.append_nil]
    rw [if_neg (by simp [List.length_append])]
  · intro ev0 t b tail hb htail
    simp only [EventReader.next_events, List.nil_append]
    rw [utf8Chunk_text, utf8Chunk_badLead b tail hb]
    simp only [List.append_nil]
    rw [if_pos]
    simp only [List.length_append, List.length_cons, List.length_nil]
    have : tail.length ≠ 0 := fun h => htail (List.length_eq_zero.mp h)
    omega
  · intro ev0 t b hb
    simp only [EventReader.next_events, List.nil_append]
    rw [utf8Chunk_text, utf8Chunk_badLead b [] hb]
    simp only [List.append_nil]
    rw [if_neg (by simp [List.length_append])]

/-- Witness for `sse_utf8_boundary_handling`: the text "a" followed by
the first byte of the two-byte character, by the malformed byte 255 with
a byte after it, and by a trailing 255. -/
theorem sse_utf8_boundary_handling_witness :
    EventReader.next_events ⟨Event.empty, []⟩ (charsToBytes "a".data ++ (charToBytes (Char.ofNat 1071)).take 1)
      = some ((runIter Event.empty "a".data).1,
          ⟨(runIter Event.empty "a".data).2.1,
           charsToBytes (runIter Event.empty "a".data).2.2 ++ (charToBytes (Char.ofNat 1071)).take 1⟩)
    ∧ EventReader.next_events ⟨Event.empty, []⟩ (charsToBytes "a".data ++ 255 :: [0]) = none
    ∧ EventReader.next_events ⟨Event.empty, []⟩ (charsToBytes "a".data ++ [255])
      = some ((runIter Event.empty "a".data).1,
          ⟨(runIter Event.empty "a".data).2.1,
           charsToBytes (runIter Event.empty "a".data).2.2 ++ [255]⟩) := by
  have h := sse_utf8_boundary_handling
  exact ⟨h.1 Event.empty "a".data (Char.ofNat 1071) 1 (by decide) (by decide),
    h.2.1 Event.empty "a".data 255 [0] (by decide) (by decide),
    h.2.2 Event.empty "a".data 255 (by decide)⟩

/-! ## Claim C5 -/

/-- C5: in the streaming stream-chunk conversion, every choice entry with
a finish reason but no delta role gets its delta role set to
"assistant" (all other components of the entry unchanged), and every
choice entry not of that shape is forwarded unchanged; the list of
choices keeps its length and order. -/
theorem stream_chunk_role_normalization :
    ∀ (m : ResponseStreamChunk) (i : Nat) (h : i < m.choices.length)
      (h2 : i < (convertChunk m).choices.length),
      (convertChunk m).choices.length = m.choices.length
      ∧ (((m.choices.get ⟨i, h⟩).finish_reason.isSome
            ∧ (m.choices.get ⟨i, h⟩).delta.role = none) →
          (convertChunk m).choices.get ⟨i, h2⟩
            = { m.choices.get ⟨i, h⟩ with
                delta := { (m.choices.get ⟨i, h⟩).delta with
                  role := some ("assistant".data) } })
      ∧ (¬((m.choices.get ⟨i, h⟩).finish_reason.isSome
            ∧ (m.choices.get ⟨i, h⟩).delta.role = none) →
          (convertChunk m).choices.get ⟨i, h2⟩ = m.choices.get ⟨i, h⟩) := by
  intro m i h h2
  have hlen : (convertChunk m).choices.length = m.choices.length := by
    simp [convertChunk]
  have hget : (convertChunk m).choices.get ⟨i, h2⟩ = fixChoice (m.choices.get ⟨i, h⟩) := by
    simp [convertChunk, List.get_eq_getElem, List.getElem_map]
  refine ⟨hlen, ?_, ?_⟩
  · intro hc
    rw [hget]
    unfold fixChoice
    rw [if_pos ⟨hc.1, by rw [Option.isNone_iff_eq_none]; exact hc.2⟩]
  · intro hc
    rw [hget]
    unfold fixChoice
    rw [if_neg]
    intro hcond
    exact hc ⟨hcond.1, Option.isNone_iff_eq_none.mp hcond.2⟩

/-- Witness for `stream_chunk_role_normalization` at a two-element chunk
whose first choice has a finish reason and no role and whose second has
a role already. -/
theorem stream_chunk_role_normalization_witness :
    (convertChunk ⟨[{ delta := {}, finish_reason := some "stop".data },
        { delta := { role := some "user".data }, finish_reason := some "stop".data }]⟩).choices.length
      = (⟨[{ delta := {}, finish_reason := some "stop".data },
        { delta := { role := some "user".data }, finish_reason := some "stop".data }]⟩ : ResponseStreamChunk).choices.length
    ∧ ((((⟨[{ delta := {}, finish_reason := some "stop".data },
        { delta := { role := some "user".data }, finish_reason := some "stop".data }]⟩ : ResponseStreamChunk).choices.get
          ⟨0, by decide⟩).finish_reason.isSome
        ∧ (((⟨[{ delta := {}, finish_reason := some "stop".data },
        { delta := { role := some "user".data }, finish_reason := some "stop".data }]⟩ : ResponseStreamChunk).choices.get
          ⟨0, by decide⟩).delta.role = none)) →
        (convertChunk ⟨[{ delta := {}, finish_reason := some "stop".data },
          { delta := { role := some "user".data }, finish_reason := some "stop".data }]⟩).choices.get ⟨0, by decide⟩
          = { (⟨[{ delta := {}, finish_reason := some "stop".data },
              { delta := { role := some "user".data }, finish_reason := some "stop".data }]⟩ : ResponseStreamChunk).choices.get ⟨0, by decide⟩ with
              delta := { ((⟨[{ delta := {}, finish_reason := some "stop".data },
                { delta := { role := some "user".data }, finish_reason := some "stop".data }]⟩ : ResponseStreamChunk).choices.get ⟨0, by decide⟩).delta with
                role := some ("assistant".data) } })
    ∧ (¬(((⟨[{ delta := {}, finish_reason := some "stop".data },
        { delta := { role := some "user".data }, finish_reason := some "stop".data }]⟩ : ResponseStreamChunk).choices.get
          ⟨0, by decide⟩).finish_reason.isSome
        ∧ (((⟨[{ delta := {}, finish_reason := some "stop".data },
        { delta := { role := some "user".data }, finish_reason := some "stop".data }]⟩ : ResponseStreamChunk).choices.get
          ⟨0, by decide⟩).delta.role = none)) →
        (convertChunk ⟨[{ delta := {}, finish_reason := some "stop".data },
          { delta := { role := some "user".data }, finish_reason := some "stop".data }]⟩).choices.get ⟨0, by decide⟩
          = (⟨[{ delta := {}, finish_reason := some "stop".data },
              { delta := { role := some "user".data }, finish_reason := some "stop".data }]⟩ : ResponseStreamChunk).choices.get ⟨0, by decide⟩) := by
  exact stream_chunk_role_normalization
    ⟨[{ delta := {}, finish_reason := some "stop".data },
      { delta := { role := some "user".data }, finish_reason := some "stop".data }]⟩
    0 (by decide) (by decide)

/-! ## Claim C6 -/

/-- C6 counterexample: for a llama.cpp-style backend with an empty
configured model override, the claim says the client-supplied model
field is passed through unchanged, so the outgoing model for a client
request with model "x" would be "x".  `convert_request` in fact writes
the configured model string unconditionally, so the outgoing model is
the empty string. -/
theorem model_override_not_passthrough :
    (convertRequestBody none []
        { model := "x".data, messages := [], stream := none }).1.model = []
    ∧ ([] : List Char) ≠ "x".data := by
  exact ⟨rfl, by decide⟩

/-- C6 amended: the outgoing model field is always the configured model
string, for every client request; with an empty override the outgoing
model is the empty string, and the client-supplied model is never passed
through (the outgoing model does not depend on the request at all). -/
theorem model_field_always_configured :
    ∀ (system_prompt : Option (List Char)) (model : List Char) (req : ApiRequest),
      (convertRequestBody system_prompt model req).1.model = model := by
  intro sp model req
  rfl

/-! ## Claim C7 -/

/-- C7 counterexample: the claim says the inbound query is kept untouched
in the outgoing URI.  `convert_request` replaces the whole
path-and-query component with the static kind-specific path, so an
accepted inbound request with query "a=1" produces an outgoing URI with
no query at all. -/
theorem rewrite_uri_drops_query :
    inboundPathOk { path := "/chat/completions".data, query := some "a=1".data } = true
    ∧ (convertRequestUri ServerKind.LlamaCpp
        { path := "/chat/completions".data, query := some "a=1".data }).query = none
    ∧ (none : Option (List Char)) ≠ some ("a=1".data) := by
  exact ⟨by decide, rfl, by decide⟩

/-- C7 amended: for every accepted inbound request, the outgoing URI path
is the kind-specific completion path — /chat/completions for llama.cpp
style, /v1/chat/completions for OpenAI style — the inbound query is
dropped (the whole path-and-query is replaced), and the scheme and
authority of the inbound URI are kept unchanged. -/
theorem rewrite_uri_spec :
    ∀ (kind : ServerKind) (uri : UriModel), inboundPathOk uri = true →
      (convertRequestUri kind uri).path = completionPath kind
      ∧ (convertRequestUri kind uri).query = none
      ∧ (convertRequestUri kind uri).scheme = uri.scheme
      ∧ (convertRequestUri kind uri).authority = uri.authority
      ∧ completionPath ServerKind.LlamaCpp = "/chat/completions".data
      ∧ completionPath ServerKind.OpenAi = "/v1/chat/completions".data := by
  intro kind uri h
  exact ⟨rfl, rfl, rfl, rfl, rfl, rfl⟩

/-- Witness for `rewrite_uri_spec` at an accepted inbound URI with a
query. -/
theorem rewrite_uri_spec_witness :
    (convertRequestUri ServerKind.OpenAi
        { path := "/chat/completions".data, query := some "a=1".data }).path
      = completionPath ServerKind.OpenAi
    ∧ (convertRequestUri ServerKind.OpenAi
        { path := "/chat/completions".data, query := some "a=1".data }).query = none
    ∧ (convertRequestUri ServerKind.OpenAi
        { path := "/chat/completions".data, query := some "a=1".data }).scheme
      = ({ path := "/chat/completions".data, query := some "a=1".data } : UriModel).scheme
    ∧ (convertRequestUri ServerKind.OpenAi
        { path := "/chat/completions".data, query := some "a=1".data }).authority
      = ({ path := "/chat/completions".data, query := some "a=1".data } : UriModel).authority
    ∧ completionPath ServerKind.LlamaCpp = "/chat/completions".data
    ∧ completionPath ServerKind.OpenAi = "/v1/chat/completions".data := by
  exact rewrite_uri_spec ServerKind.OpenAi
    { path := "/chat/completions".data, query := some "a=1".data } (by decide)

/-! ## Claim C8 -/

/-- C8: every error arising in convert_request, send or convert_response
reaches `call` as the error of `forward` and is converted into a
response with status 500, content type text/plain and the error text as
body; a successful forward is returned as is; `call` never returns an
error. -/
theorem call_catches_all_errors :
    ∀ (α β : Type) (cq : Except (List Char) α) (sd : α → Except (List Char) β)
      (cv : β → Except (List Char) ResponseModel),
      (∀ e, cq = Except.error e → call cq sd cv
        = Except.ok { status := 500, contentType := some ("text/plain".data), body := e })
      ∧ (∀ a e, cq = Except.ok a → sd a = Except.error e → call cq sd cv
        = Except.ok { status := 500, contentType := some ("text/plain".data), body := e })
      ∧ (∀ a b e, cq = Except.ok a → sd a = Except.ok b → cv b = Except.error e →
        call cq sd cv
          = Except.ok { status := 500, contentType := some ("text/plain".data), body := e })
      ∧ (∀ r, forward cq sd cv = Except.ok r → call cq sd cv = Except.ok r)
      ∧ (∀ e, call cq sd cv ≠ Except.error e) := by
  intro α β cq sd cv
  refine ⟨?_, ?_, ?_, ?_, ?_⟩
  · intro e he
    subst he
    rfl
  · intro a e hq hs
    subst hq
    unfold call forward
    simp only [bind, Except.bind, hs]
    rfl
  · intro a b e hq hs hv
    subst hq
    unfold call forward
    simp only [bind, Except.bind, hs, hv]
    rfl
  · intro r hr
    unfold call
    rw [hr]
  · intro e
    unfold call
    cases forward cq sd cv <;> simp

/-- Witness for `call_catches_all_errors`: a failure in each of the three
stages produces the corresponding 500 response. -/
theorem call_catches_all_errors_witness :
    call (Except.error "e1".data) (fun _ : Unit => Except.ok ())
        (fun _ : Unit => Except.ok { status := 200 })
      = Except.ok { status := 500, contentType := some ("text/plain".data), body := "e1".data }
    ∧ call (Except.ok ()) (fun _ : Unit => Except.error "e2".data)
        (fun _ : Unit => Except.ok { status := 200 })
      = Except.ok { status := 500, contentType := some ("text/plain".data), body := "e2".data }
    ∧ call (Except.ok ()) (fun _ : Unit => Except.ok ())
        (fun _ : Unit => Except.error "e3".data)
      = Except.ok { status := 500, contentType := some ("text/plain".data), body := "e3".data } := by
  refine ⟨(call_catches_all_errors Unit Unit _ _ _).1 "e1".data rfl,
    (call_catches_all_errors Unit Unit _ _ _).2.1 () "e2".data rfl rfl,
    (call_catches_all_errors Unit Unit _ _ _).2.2.1 () () "e3".data rfl rfl rfl⟩

/-! ## Claim C10 -/

/-- C10: in the streaming loop, an event whose data is absent contributes
nothing (it is skipped), an event whose data is the literal sentinel
"[DONE]" is forwarded as a data-only event carrying "[DONE]", and every
event that is forwarded carries only a data field: its type, id and
retry are never set. -/
theorem stream_forward_data_only :
    ∀ (decode : List Char → Option ResponseStreamChunk)
      (encode : ResponseStreamChunk → List Char) (ev : Event),
      (ev.data = none → processEvent decode encode ev = Except.ok none)
      ∧ (ev.data = some ("[DONE]".data) →
          processEvent decode encode ev = Except.ok (some { data := some ("[DONE]".data) }))
      ∧ (∀ out, processEvent decode encode ev = Except.ok (some out) →
          out.type_ = none ∧ out.id = none ∧ out.retry = none ∧ out.data.isSome = true) := by
  intro decode encode ev
  refine ⟨?_, ?_, ?_⟩
  · intro h
    unfold processEvent
    rw [h]
  · intro h
    unfold processEvent
    rw [h]
    simp
  · intro out h
    unfold processEvent at h
    cases hd : ev.data with
    | none =>
      rw [hd] at h
      simp at h
    | some d =>
      rw [hd] at h
      dsimp only at h
      by_cases hdone : d = "[DONE]".data
      · rw [if_pos hdone] at h
        simp only [Except.ok.injEq, Option.some.injEq] at h
        subst h
        exact ⟨rfl, rfl, rfl, rfl⟩
      · rw [if_neg hdone] at h
        cases hdec : decode d with
        | none =>
          rw [hdec] at h
          simp at h
        | some msg =>
          rw [hdec] at h
          simp only [Except.ok.injEq, Option.some.injEq] at h
          subst h
          exact ⟨rfl, rfl, rfl, rfl⟩

/-- Witness for `stream_forward_data_only`: an id-only event is skipped,
the [DONE] sentinel is forwarded as a data-only event, and a decoded
event is forwarded with only its data field set. -/
theorem stream_forward_data_only_witness :
    processEvent (fun _ => some ⟨[]⟩) (fun _ => []) { id := some "1".data } = Except.ok none
    ∧ processEvent (fun _ => some ⟨[]⟩) (fun _ => []) { data := some "[DONE]".data }
      = Except.ok (some { data := some ("[DONE]".data) })
    ∧ (({ data := some ([] : List Char) } : Event).type_ = none
        ∧ ({ data := some ([] : List Char) } : Event).id = none
        ∧ ({ data := some ([] : List Char) } : Event).retry = none
        ∧ ({ data := some ([] : List Char) } : Event).data.isSome = true) := by
  refine ⟨(stream_forward_data_only (fun _ => some ⟨[]⟩) (fun _ => []) { id := some "1".data }).1 rfl,
    (stream_forward_data_only (fun _ => some ⟨[]⟩) (fun _ => []) { data := some "[DONE]".data }).2.1 rfl,
    (stream_forward_data_only (fun _ => some ⟨[]⟩) (fun _ => [])
      { data := some "x".data }).2.2 { data := some ([] : List Char) } rfl⟩

/-! ## Claim C9 -/

theorem readHead_error_ne_ok :
    ∀ (bs : List Nat) (lf : Nat) (acc : List Nat),
      readHead bs lf acc ≠ Except.error HandshakeResult.ok := by
  intro bs
  induction bs with
  | nil =>
    intro lf acc h
    rw [readHead] at h
    by_cases hlf : lf ≥ 2
    · rw [if_pos hlf] at h
      exact Except.noConfusion h
    · rw [if_neg hlf] at h
      simp at h
  | cons b bs2 ih =>
    intro lf acc h
    rw [readHead] at h
    by_cases hlf : lf ≥ 2
    · rw [if_pos hlf] at h
      exact Except.noConfusion h
    · rw [if_neg hlf] at h
      by_cases hb : b = 10
      · rw [if_pos hb] at h
        exact ih _ _ h
      · rw [if_neg hb] at h
        by_cases hc : lf ≠ 0 ∧ b ≠ 13
        · rw [if_pos hc] at h
          simp at h
        · rw [if_neg hc] at h
          exact ih _ _ h

theorem readHead_one :
    ∀ (bs acc head : List Nat),
      readHead bs 1 acc = Except.ok head ↔
        ∃ k rest, bs = List.replicate k 13 ++ 10 :: rest
          ∧ head = acc ++ List.replicate k 13 ++ [10] := by
  intro bs
  induction bs with
  | nil =>
    intro acc head
    constructor
    · intro h
      rw [readHead, if_neg (by omega)] at h
      exact absurd h (by simp)
    · rintro ⟨k, rest, hbs, -⟩
      exfalso
      cases k with
      | zero => simp at hbs
      | succ k2 => rw [List.replicate_succ] at hbs; simp at hbs
  | cons b bs2 ih =>
    intro acc head
    rw [readHead, if_neg (by omega)]
    by_cases hb : b = 10
    · subst hb
      rw [if_pos rfl, readHead.eq_def, if_pos (by omega)]
      constructor
      · intro h
        simp only [Except.ok.injEq] at h
        exact ⟨0, bs2, by simp, by simp [← h]⟩
      · rintro ⟨k, rest, hbs, hhead⟩
        cases k with
        | zero =>
          simp only [List.replicate, List.nil_append] at hbs hhead
          simp [hhead]
        | succ k2 =>
          rw [List.replicate_succ] at hbs
          simp at hbs
    · rw [if_neg hb]
      by_cases h13 : b = 13
      · subst h13
        rw [if_neg (by simp)]
        rw [ih (acc ++ [13]) head]
        constructor
        · rintro ⟨k, rest, hbs, hhead⟩
          refine ⟨k + 1, rest, ?_, ?_⟩
          · rw [List.replicate_succ, hbs]
            simp
          · rw [hhead, List.replicate_succ]
            simp
        · rintro ⟨k, rest, hbs, hhead⟩
          cases k with
          | zero =>
            simp only [List.replicate, List.nil_append] at hbs
            simp at hbs
          | succ k2 =>
            rw [List.replicate_succ] at hbs hhead
            simp only [List.cons_append, List.cons.injEq] at hbs
            refine ⟨k2, rest, hbs.2, ?_⟩
            rw [hhead]
            simp
      · rw [if_pos ⟨by omega, h13⟩]
        constructor
        · intro h
          exact absurd h (by simp)
        · rintro ⟨k, rest, hbs, -⟩
          exfalso
          cases k with
          | zero =>
            simp only [List.replicate, List.nil_append, List.cons.injEq] at hbs
            exact hb hbs.1
          | succ k2 =>
            rw [List.replicate_succ] at hbs
            simp only [List.cons_append, List.cons.injEq] at hbs
            exact h13 hbs.1

theorem readHead_zero :
    ∀ (bs acc head : List Nat),
      readHead bs 0 acc = Except.ok head ↔
        ∃ l1 k rest, 10 ∉ l1
          ∧ bs = l1 ++ 10 :: (List.replicate k 13 ++ 10 :: rest)
          ∧ head = acc ++ l1 ++ 10 :: (List.replicate k 13 ++ [10]) := by
  intro bs
  induction bs with
  | nil =>
    intro acc head
    constructor
    · intro h
      rw [readHead, if_neg (by omega)] at h
      exact absurd h (by simp)
    · rintro ⟨l1, k, rest, -, hbs, -⟩
      exfalso
      cases l1 with
      | nil => simp at hbs
      | cons x l2 => simp at hbs
  | cons b bs2 ih =>
    intro acc head
    rw [readHead, if_neg (by omega)]
    by_cases hb : b = 10
    · subst hb
      rw [if_pos rfl, readHead_one]
      constructor
      · rintro ⟨k, rest, hbs, hhead⟩
        refine ⟨[], k, rest, by simp, by simp [hbs], ?_⟩
        rw [hhead]
        simp
      · rintro ⟨l1, k, rest, h10, hbs, hhead⟩
        cases l1 with
        | nil =>
          simp only [List.nil_append, List.cons.injEq] at hbs
          refine ⟨k, rest, hbs.2, ?_⟩
          rw [hhead]
          simp
        | cons x l2 =>
          exfalso
          simp only [List.cons_append, List.cons.injEq] at hbs
          exact h10 (hbs.1 ▸ List.mem_cons_self x l2)
    · rw [if_neg hb, if_neg (by omega)]
      rw [ih (acc ++ [b]) head]
      constructor
      · rintro ⟨l1, k, rest, h10, hbs, hhead⟩
        refine ⟨b :: l1, k, rest, ?_, by simp [hbs], ?_⟩
        · intro hmem
          rcases List.mem_cons.mp hmem with h1 | h1
          · exact hb h1.symm
          · exact h10 h1
        · rw [hhead]
          simp
      · rintro ⟨l1, k, rest, h10, hbs, hhead⟩
        cases l1 with
        | nil =>
          exfalso
          simp only [List.nil_append, List.cons.injEq] at hbs
          exact hb hbs.1
        | cons x l2 =>
          simp only [List.cons_append, List.cons.injEq] at hbs
          refine ⟨l2, k, rest, fun hm => h10 (List.mem_cons_of_mem x hm), hbs.2, ?_⟩
          rw [hhead, ← hbs.1]
          simp

/-- C9 counterexample: the claim says the handshake succeeds if and only
if the protocol token is HTTP/1.1 and the status token is 200.  On the
response "HTTP/1.1 200 OK\nA: b\n\n" — protocol HTTP/1.1, status 200,
no I/O failure, two consecutive line terminators at the end — the read
loop bails out at the first header byte, because after the first LF it
accepts only CR or LF bytes.  The same status line with no headers is
accepted. -/
theorem handshake_rejects_headers :
    handshake (strBytes "HTTP/1.1 200 OK\nA: b\n\n") = HandshakeResult.badFraming
    ∧ HandshakeResult.badFraming ≠ HandshakeResult.ok
    ∧ handshake (strBytes "HTTP/1.1 200 OK\n\n") = HandshakeResult.ok := by
  refine ⟨by decide, by decide, by decide⟩

/-- C9 amended: the handshake reads the response byte by byte and
succeeds if and only if the stream begins with an LF-free status line,
its LF terminator, then only CR bytes up to a second LF (so the read
completes: after the first line terminator every byte up to the second
must itself be part of a line terminator), the head so read is valid
UTF-8, and its first two whitespace-separated tokens are exactly
HTTP/1.1 and 200.  Any other protocol token, any other status token,
malformed framing, or running out of bytes (an I/O failure) fails the
handshake; bytes after the second LF are never read. -/
theorem handshake_ok_iff :
    ∀ bs : List Nat,
      handshake bs = HandshakeResult.ok ↔
        ∃ (l1 : List Nat) (k : Nat) (rest : List Nat),
          10 ∉ l1
          ∧ bs = l1 ++ 10 :: (List.replicate k 13 ++ 10 :: rest)
          ∧ (utf8Chunk (l1 ++ 10 :: (List.replicate k 13 ++ [10]))).2.1 = []
          ∧ (utf8Chunk (l1 ++ 10 :: (List.replicate k 13 ++ [10]))).2.2 = []
          ∧ (splitWs (utf8Chunk (l1 ++ 10 :: (List.replicate k 13 ++ [10]))).1).take 2
            = ["HTTP/1.1".data, "200".data] := by
  intro bs
  constructor
  · intro h
    unfold handshake at h
    cases hr : readHead bs 0 [] with
    | error e =>
      rw [hr] at h
      dsimp only at h
      subst h
      exact absurd hr (readHead_error_ne_ok bs 0 [])
    | ok head =>
      rw [hr] at h
      dsimp only at h
      by_cases hu : (utf8Chunk head).2.1 ≠ [] ∨ (utf8Chunk head).2.2 ≠ []
      · rw [if_pos hu] at h
        simp at h
      · rw [if_neg hu] at h
        push_neg at hu
        obtain ⟨hu1, hu2⟩ := hu
        rcases hsw : splitWs (utf8Chunk head).1 with _ | ⟨t1, ts⟩
        · rw [hsw] at h
          simp at h
        · rcases ts with _ | ⟨t2, ts2⟩
          · rw [hsw] at h
            dsimp only at h
            by_cases h1 : t1 ≠ "HTTP/1.1".data
            · rw [if_pos h1] at h
              simp at h
            · rw [if_neg h1] at h
              simp at h
          · rw [hsw] at h
            dsimp only at h
            by_cases h1 : t1 ≠ "HTTP/1.1".data
            · rw [if_pos h1] at h
              simp at h
            · rw [if_neg h1] at h
              by_cases h2 : t2 ≠ "200".data
              · rw [if_pos h2] at h
                simp at h
              · push_neg at h1 h2
                obtain ⟨l1, k, rest, h10, hbs, hhead⟩ := (readHead_zero bs [] head).mp hr
                rw [List.nil_append] at hhead
                subst hhead
                refine ⟨l1, k, rest, h10, hbs, hu1, hu2, ?_⟩
                rw [hsw, h1, h2]
                rfl
  · rintro ⟨l1, k, rest, h10, hbs, hu1, hu2, htok⟩
    have hrh : readHead bs 0 [] = Except.ok (l1 ++ 10 :: (List.replicate k 13 ++ [10])) :=
      (readHead_zero bs [] _).mpr ⟨l1, k, rest, h10, hbs, by rw [List.nil_append]⟩
    unfold handshake
    rw [hrh]
    dsimp only
    rw [if_neg (by push_neg; exact ⟨hu1, hu2⟩)]
    rcases hsw : splitWs (utf8Chunk (l1 ++ 10 :: (List.replicate k 13 ++ [10]))).1
      with _ | ⟨t1, ts⟩
    · rw [hsw] at htok
      simp at htok
    · rcases ts with _ | ⟨t2, ts2⟩
      · rw [hsw] at htok
        simp at htok
      · rw [hsw] at htok
        simp only [List.take_succ_cons, List.take_zero, List.cons.injEq, and_true] at htok
        obtain ⟨ht1, ht2⟩ := htok
        dsimp only
        rw [if_neg (by simp [ht1]), if_neg (by simp [ht2])]

/-! ## Claim C4 support: line and data round trips -/

theorem splitOnceColon_append (n t : List Char) (h : ':' ∉ n) :
    splitOnceColon (n ++ ':' :: t) = some (n, t) := by
  induction n with
  | nil => simp [splitOnceColon]
  | cons c n2 ih =>
    have hc : c ≠ ':' := fun hh => h (hh ▸ List.mem_cons_self c n2)
    have h2 : ':' ∉ n2 := fun hh => h (List.mem_cons_of_mem c hh)
    simp only [List.cons_append, splitOnceColon, if_neg hc, List.append_eq]
    rw [ih h2]
    rfl

theorem splitOnceColon_none (n : List Char) (h : ':' ∉ n) :
    splitOnceColon n = none := by
  induction n with
  | nil => rfl
  | cons c n2 ih =>
    have hc : c ≠ ':' := fun hh => h (hh ▸ List.mem_cons_self c n2)
    have h2 : ':' ∉ n2 := fun hh => h (List.mem_cons_of_mem c hh)
    simp only [splitOnceColon, if_neg hc, ih h2, Option.map_none']

theorem lineWrite_field (name v : List Char) :
    Line.write_to (Line.field name v)
      = if v = [] then name else name ++ ':' :: ' ' :: v := rfl

theorem lineFromStr_field (name v : List Char) (hcol : ':' ∉ name)
    (hnil : name ≠ []) :
    Line.from_str (Line.write_to (Line.field name v)) = Line.field name v := by
  by_cases hv : v = []
  · subst hv
    rw [lineWrite_field, if_pos rfl]
    unfold Line.from_str
    rw [splitOnceColon_none name hcol]
    dsimp only
    rw [if_pos hnil]
  · rw [lineWrite_field, if_neg hv]
    unfold Line.from_str
    rw [splitOnceColon_append name (' ' :: v) hcol]
    dsimp only
    rw [if_pos hnil]
    unfold stripSpace
    dsimp only
    rw [if_pos rfl]

theorem splitNl_ne_nil (v : List Char) : splitNl v ≠ [] := by
  cases v with
  | nil => simp [splitNl]
  | cons c rest =>
    simp only [splitNl]
    cases splitNl rest with
    | nil => simp
    | cons h t =>
      by_cases hc : c = '\n' <;> simp [hc]

theorem splitNl_no_lf : ∀ (v p : List Char), p ∈ splitNl v → '\n' ∉ p := by
  intro v
  induction v with
  | nil =>
    intro p hp
    simp [splitNl] at hp
    simp [hp]
  | cons c rest ih =>
    intro p hp
    simp only [splitNl] at hp
    cases hs : splitNl rest with
    | nil => exact absurd hs (splitNl_ne_nil rest)
    | cons h t =>
      rw [hs] at hp
      dsimp only at hp
      by_cases hc : c = '\n'
      · rw [if_pos hc] at hp
        rcases List.mem_cons.mp hp with h1 | h1
        · subst h1; simp
        · exact ih p (hs ▸ h1)
      · rw [if_neg hc] at hp
        rcases List.mem_cons.mp hp with h1 | h1
        · subst h1
          intro hm
          rcases List.mem_cons.mp hm with h2 | h2
          · exact hc h2.symm
          · exact ih h (hs ▸ List.mem_cons_self h t) h2
        · exact ih p (hs ▸ List.mem_cons_of_mem h h1)

theorem splitNl_mem : ∀ (v p : List Char) (c : Char), p ∈ splitNl v → c ∈ p → c ∈ v := by
  intro v
  induction v with
  | nil =>
    intro p c hp hc
    simp [splitNl] at hp
    subst hp
    simp at hc
  | cons b rest ih =>
    intro p c hp hc
    simp only [splitNl] at hp
    cases hs : splitNl rest with
    | nil => exact absurd hs (splitNl_ne_nil rest)
    | cons h t =>
      rw [hs] at hp
      dsimp only at hp
      by_cases hb : b = '\n'
      · rw [if_pos hb] at hp
        rcases List.mem_cons.mp hp with h1 | h1
        · subst h1; simp at hc
        · exact List.mem_cons_of_mem b (ih p c (hs ▸ h1) hc)
      · rw [if_neg hb] at hp
        rcases List.mem_cons.mp hp with h1 | h1
        · subst h1
          rcases List.mem_cons.mp hc with h2 | h2
          · exact h2 ▸ List.mem_cons_self b rest
          · exact List.mem_cons_of_mem b (ih h c (hs ▸ List.mem_cons_self h t) h2)
        · exact List.mem_cons_of_mem b (ih p c (hs ▸ List.mem_cons_of_mem h h1) hc)

theorem foldl_append_pre : ∀ (ps : List (List Char)) (a b : List Char),
    ps.foldl (fun x q => x ++ '\n' :: q) (a ++ b)
      = a ++ ps.foldl (fun x q => x ++ '\n' :: q) b := by
  intro ps
  induction ps with
  | nil => intro a b; rfl
  | cons p ps2 ih =>
    intro a b
    simp only [List.foldl_cons]
    have hassoc : (a ++ b) ++ '\n' :: p = a ++ (b ++ '\n' :: p) := by
      rw [List.append_assoc]
    rw [hassoc, ih a (b ++ '\n' :: p)]

theorem splitNl_join : ∀ v : List Char,
    ∃ p ps, splitNl v = p :: ps
      ∧ ps.foldl (fun a q => a ++ '\n' :: q) p = v := by
  intro v
  induction v with
  | nil => exact ⟨[], [], rfl, rfl⟩
  | cons c rest ih =>
    obtain ⟨p, ps, hs, hf⟩ := ih
    by_cases hc : c = '\n'
    · refine ⟨[], p :: ps, ?_, ?_⟩
      · simp only [splitNl, hs]
        rw [if_pos hc]
      · simp only [List.foldl_cons, List.nil_append]
        have hsh : '\n' :: p = ['\n'] ++ p := rfl
        rw [hsh, foldl_append_pre ps ['\n'] p, hf, hc]
        rfl
    · refine ⟨c :: p, ps, ?_, ?_⟩
      · simp only [splitNl, hs]
        rw [if_neg hc]
      · have hsh : c :: p = [c] ++ p := rfl
        rw [hsh, foldl_append_pre ps [c] p, hf]
        rfl

/-! ## Claim C4 support: the retry value round trip -/

theorem natToCharsF_digits : ∀ (fuel n : Nat), n ≤ fuel →
    ∀ c ∈ natToCharsF fuel n, 48 ≤ c.toNat ∧ c.toNat ≤ 57 := by
  intro fuel
  induction fuel with
  | zero =>
    intro n hle c hc
    interval_cases n
    simp only [natToCharsF, List.mem_singleton] at hc
    subst hc
    rw [char_toNat_ofNat 48 (Or.inl (by omega))]
    omega
  | succ f ih =>
    intro n hle c hc
    simp only [natToCharsF] at hc
    by_cases hn : n < 10
    · rw [if_pos hn] at hc
      simp only [List.mem_singleton] at hc
      subst hc
      rw [char_toNat_ofNat (48 + n) (Or.inl (by omega))]
      omega
    · rw [if_neg hn] at hc
      rcases List.mem_append.mp hc with h | h
      · exact ih (n / 10) (by omega) c h
      · simp only [List.mem_singleton] at h
        subst h
        rw [char_toNat_ofNat (48 + n % 10) (Or.inl (by omega))]
        omega

theorem natToCharsF_val : ∀ (fuel n : Nat), n ≤ fuel →
    (natToCharsF fuel n).foldl (fun a c => a * 10 + (c.toNat - 48)) 0 = n := by
  intro fuel
  induction fuel with
  | zero =>
    intro n hle
    interval_cases n
    simp only [natToCharsF, List.foldl_cons, List.foldl_nil]
    rw [char_toNat_ofNat 48 (Or.inl (by omega))]
  | succ f ih =>
    intro n hle
    simp only [natToCharsF]
    by_cases hn : n < 10
    · rw [if_pos hn]
      simp only [List.foldl_cons, List.foldl_nil]
      rw [char_toNat_ofNat (48 + n) (Or.inl (by omega))]
      omega
    · rw [if_neg hn]
      rw [List.foldl_append]
      rw [ih (n / 10) (by omega)]
      simp only [List.foldl_cons, List.foldl_nil]
      rw [char_toNat_ofNat (48 + n % 10) (Or.inl (by omega))]
      omega

theorem natToCharsF_ne_nil (fuel n : Nat) : natToCharsF fuel n ≠ [] := by
  cases fuel with
  | zero => simp [natToCharsF]
  | succ f =>
    simp only [natToCharsF]
    by_cases hn : n < 10
    · simp [hn]
    · simp [hn]

theorem parseU64_natToChars (n : Nat) (h : n < 2 ^ 64) :
    parseU64 (natToChars n) = some n := by
  have hd := natToCharsF_digits n n le_rfl
  have hv := natToCharsF_val n n le_rfl
  have hne := natToCharsF_ne_nil n n
  unfold parseU64
  cases hs : natToChars n with
  | nil => exact absurd hs hne
  | cons c rest =>
    have hc : 48 ≤ c.toNat ∧ c.toNat ≤ 57 := hd c (by rw [natToChars] at hs; rw [hs]; exact List.mem_cons_self c rest)
    have hplus : c ≠ '+' := by
      intro hh
      subst hh
      have h43 : ('+').toNat = 43 := rfl
      omega
    dsimp only
    rw [if_neg hplus, if_neg (by simp)]
    have hall : (c :: rest).all (fun x => 48 ≤ x.toNat && x.toNat ≤ 57) = true := by
      rw [List.all_eq_true]
      intro x hx
      have hx2 : x ∈ natToCharsF n n := by rw [← natToChars, hs]; exact hx
      have := hd x hx2
      simp only [Bool.and_eq_true, decide_eq_true_eq]
      omega
    rw [if_pos hall]
    have hval : (c :: rest).foldl (fun a x => a * 10 + (x.toNat - 48)) 0 = n := by
      rw [← hs, natToChars]
      exact hv
    rw [hval, if_pos h]

/-! ## Claim C4 support: field updates on rendered lines -/

theorem update_field_event (e : Event) (v : List Char) :
    e.update_field ("event".data) v = { e with type_ := some v } := by
  unfold Event.update_field
  rw [if_pos rfl]

theorem update_field_data_none (e : Event) (v : List Char) (h : e.data = none) :
    e.update_field ("data".data) v = { e with data := some v } := by
  unfold Event.update_field
  rw [if_neg (by decide), if_pos rfl, h]

theorem update_field_data_some (e : Event) (v d : List Char) (h : e.data = some d) :
    e.update_field ("data".data) v = { e with data := some (d ++ '\n' :: v) } := by
  unfold Event.update_field
  rw [if_neg (by decide), if_pos rfl, h]

theorem update_field_id (e : Event) (v : List Char) :
    e.update_field ("id".data) v = { e with id := some v } := by
  unfold Event.update_field
  rw [if_neg (by decide), if_neg (by decide), if_pos rfl]

theorem update_field_retry (e : Event) (ms : Nat) (h : ms < 2 ^ 64) :
    e.update_field ("retry".data) (natToChars ms) = { e with retry := some ms } := by
  unfold Event.update_field
  rw [if_neg (by decide), if_neg (by decide), if_neg (by decide), if_pos rfl,
    parseU64_natToChars ms h]

theorem foldl_data_step : ∀ (parts : List (List Char)) (e : Event) (d : List Char),
    e.data = some d →
    parts.foldl (fun a p => a.update_field ("data".data) p) e
      = { e with data := some (parts.foldl (fun a q => a ++ '\n' :: q) d) } := by
  intro parts
  induction parts with
  | nil =>
    intro e d h
    obtain ⟨t, d0, i, r⟩ := e
    simp only [List.foldl_nil]
    simp only at h
    rw [h]
  | cons p ps ih =>
    intro e d h
    rw [List.foldl_cons, update_field_data_some e p d h]
    rw [ih _ (d ++ '\n' :: p) rfl]
    rfl

theorem foldl_data_start (p : List Char) (ps : List (List Char)) (e : Event)
    (h : e.data = none) :
    (p :: ps).foldl (fun a q => a.update_field ("data".data) q) e
      = { e with data := some (ps.foldl (fun a q => a ++ '\n' :: q) p) } := by
  rw [List.foldl_cons, update_field_data_none e p h]
  exact foldl_data_step ps _ p rfl

/-! ## Claim C4 support: running the parser over rendered blocks -/

theorem lineWrite_field_no_mem (name v : List Char) (c : Char)
    (h1 : c ∉ name) (h2 : c ∉ v) (hc1 : c ≠ ':') (hc2 : c ≠ ' ') :
    c ∉ Line.write_to (Line.field name v) := by
  rw [lineWrite_field]
  by_cases hv : v = []
  · rw [if_pos hv]
    exact h1
  · rw [if_neg hv]
    intro hmem
    rcases List.mem_append.mp hmem with h | h
    · exact h1 h
    · rcases List.mem_cons.mp h with h | h
      · exact hc1 h
      · rcases List.mem_cons.mp h with h | h
        · exact hc2 h
        · exact h2 h

theorem runIter_field_block (ev : Event) (name v rest : List Char)
    (hcol : ':' ∉ name) (hnil : name ≠ [])
    (hn1 : '\n' ∉ name) (hr1 : '\r' ∉ name)
    (hn2 : '\n' ∉ v) (hr2 : '\r' ∉ v) :
    runIter ev ((Line.write_to (Line.field name v) ++ ['\n']) ++ rest)
      = runIter (ev.update_field name v) rest := by
  have hw1 : '\n' ∉ Line.write_to (Line.field name v) :=
    lineWrite_field_no_mem name v '\n' hn1 hn2 (by decide) (by decide)
  have hw2 : '\r' ∉ Line.write_to (Line.field name v) :=
    lineWrite_field_no_mem name v '\r' hr1 hr2 (by decide) (by decide)
  have hsplit : splitLine ((Line.write_to (Line.field name v) ++ ['\n']) ++ rest)
      = some (Line.write_to (Line.field name v), rest) := by
    rw [List.append_assoc, List.singleton_append]
    exact splitLine_lf _ _ hw1 hw2
  rw [runIter_step ev hsplit, lineFromStr_field name v hcol hnil]

theorem runIter_data_block : ∀ (parts : List (List Char)) (ev : Event) (rest : List Char),
    (∀ p ∈ parts, '\n' ∉ p ∧ '\r' ∉ p) →
    runIter ev
        ((parts.map (fun p => Line.write_to (Line.field ("data".data) p) ++ ['\n'])).flatten
          ++ rest)
      = runIter (parts.foldl (fun a p => a.update_field ("data".data) p) ev) rest := by
  intro parts
  induction parts with
  | nil =>
    intro ev rest h
    simp only [List.map_nil, List.flatten_nil, List.nil_append, List.foldl_nil]
  | cons p ps ih =>
    intro ev rest h
    simp only [List.map_cons, List.flatten_cons, List.foldl_cons]
    rw [List.append_assoc]
    rw [runIter_field_block ev ("data".data) p _ (by decide) (by decide) (by decide)
      (by decide) (h p (List.mem_cons_self p ps)).1 (h p (List.mem_cons_self p ps)).2]
    exact ih _ rest (fun q hq => h q (List.mem_cons_of_mem p hq))

theorem runIter_final (ev : Event) (h : ev ≠ Event.empty) :
    runIter ev ['\n'] = ([ev], Event.empty, []) := by
  have hs : splitLine ['\n'] = some ([], []) := rfl
  rw [runIter_step ev hs]
  have hf : Line.from_str [] = Line.empty := rfl
  rw [hf]
  dsimp only
  rw [if_neg h]
  rfl

theorem natToChars_ne_nil (n : Nat) : natToChars n ≠ [] := natToCharsF_ne_nil n n

theorem natToChars_no_ctrl (n : Nat) : '\n' ∉ natToChars n ∧ '\r' ∉ natToChars n := by
  constructor <;> intro hm
  · have hdig := natToCharsF_digits n n le_rfl _ hm
    have h10 : ('\n').toNat = 10 := rfl
    omega
  · have hdig := natToCharsF_digits n n le_rfl _ hm
    have h13 : ('\r').toNat = 13 := rfl
    omega

theorem retry_block_eq (ms : Nat) :
    "retry: ".data ++ natToChars ms ++ ['\n']
      = Line.write_to (Line.field ("retry".data) (natToChars ms)) ++ ['\n'] := by
  rw [lineWrite_field, if_neg (natToChars_ne_nil ms)]
  have hpre : "retry: ".data = "retry".data ++ [':', ' '] := by decide
  rw [hpre]
  simp [List.append_assoc]

theorem write_to_decomp (t d i : Option (List Char)) (r : Option Nat) :
    Event.write_to ⟨t, d, i, r⟩ =
      ((typeLines t).map (fun l => Line.write_to l ++ ['\n'])).flatten
      ++ (((dataLines d).map (fun l => Line.write_to l ++ ['\n'])).flatten
      ++ (((idLines i).map (fun l => Line.write_to l ++ ['\n'])).flatten
      ++ (retryChars r ++ ['\n']))) := by
  cases t <;> cases d <;> cases i <;> cases r <;>
    simp [Event.write_to, typeLines, dataLines, idLines, retryChars, List.map_append,
      List.flatten_append, List.append_assoc]

theorem runIter_type_block (o : Option (List Char)) (ev : Event) (rest : List Char)
    (h : ∀ v, o = some v → '\n' ∉ v ∧ '\r' ∉ v) :
    runIter ev (((typeLines o).map (fun l => Line.write_to l ++ ['\n'])).flatten ++ rest)
      = runIter (setType ev o) rest := by
  cases o with
  | none => simp [typeLines, setType]
  | some v =>
    simp only [typeLines, setType, List.map_cons, List.map_nil, List.flatten_cons,
      List.flatten_nil, List.append_nil]
    rw [runIter_field_block ev ("event".data) v rest (by decide) (by decide) (by decide)
      (by decide) (h v rfl).1 (h v rfl).2, update_field_event]

theorem runIter_id_block (o : Option (List Char)) (ev : Event) (rest : List Char)
    (h : ∀ v, o = some v → '\n' ∉ v ∧ '\r' ∉ v) :
    runIter ev (((idLines o).map (fun l => Line.write_to l ++ ['\n'])).flatten ++ rest)
      = runIter (setId ev o) rest := by
  cases o with
  | none => simp [idLines, setId]
  | some v =>
    simp only [idLines, setId, List.map_cons, List.map_nil, List.flatten_cons,
      List.flatten_nil, List.append_nil]
    rw [runIter_field_block ev ("id".data) v rest (by decide) (by decide) (by decide)
      (by decide) (h v rfl).1 (h v rfl).2, update_field_id]

theorem runIter_data_opt_block (o : Option (List Char)) (ev : Event) (rest : List Char)
    (hev : ev.data = none)
    (h : ∀ v, o = some v → '\r' ∉ v) :
    runIter ev (((dataLines o).map (fun l => Line.write_to l ++ ['\n'])).flatten ++ rest)
      = runIter (setData ev o) rest := by
  cases o with
  | none => simp [dataLines, setData]
  | some v =>
    simp only [dataLines, setData]
    rw [List.map_map]
    have hcomp : ((fun l => Line.write_to l ++ ['\n']) ∘ fun s => Line.field ("data".data) s)
        = fun p => Line.write_to (Line.field ("data".data) p) ++ ['\n'] := rfl
    rw [hcomp]
    have hparts : ∀ q ∈ splitNl v, '\n' ∉ q ∧ '\r' ∉ q := by
      intro q hq
      exact ⟨splitNl_no_lf v q hq, fun hm => h v rfl (splitNl_mem v q '\r' hq hm)⟩
    rw [runIter_data_block (splitNl v) ev rest hparts]
    obtain ⟨p, ps, hsplit, hjoin⟩ := splitNl_join v
    rw [hsplit, foldl_data_start p ps ev hev, hjoin]

theorem runIter_retry_block (o : Option Nat) (ev : Event) (rest : List Char)
    (h : ∀ ms, o = some ms → ms < 2 ^ 64) :
    runIter ev (retryChars o ++ rest) = runIter (setRetry ev o) rest := by
  cases o with
  | none => simp [retryChars, setRetry]
  | some ms =>
    simp only [retryChars, setRetry]
    rw [retry_block_eq ms]
    rw [runIter_field_block ev ("retry".data) (natToChars ms) rest (by decide) (by decide)
      (by decide) (by decide) (natToChars_no_ctrl ms).1 (natToChars_no_ctrl ms).2]
    rw [update_field_retry ev ms (h ms rfl)]

/-! ## Claim C4 -/

/-- C4 counterexample: the claim quantifies over every non-empty Event.
The event with data "\r" serializes to "data: \r\n\n"; parsing that
consumes the CR as part of a CRLF terminator, yielding the event with
empty data, which re-serializes to "data\n\n" — different bytes.  So
serialize-parse-serialize is not stable for events whose strings contain
carriage returns (or, likewise, newlines in type or id). -/
theorem sse_roundtrip_cr_counterexample :
    (runIter Event.empty (Event.write_to { data := some ['\r'] })).1
      = [{ data := some [] }]
    ∧ (runIter Event.empty (Event.write_to { data := some ['\r'] })).1.map Event.write_to
      ≠ [Event.write_to { data := some ['\r'] }] := by
  refine ⟨by decide, by decide⟩

/-- C4 amended: for every non-empty Event whose type and id contain no
newline and no carriage return, whose data contains no carriage return
(embedded newlines are fine: they round-trip through multiple data
lines), and whose retry in milliseconds fits in a u64, parsing the bytes
written by write_to yields exactly that event back, and in particular
serialize-parse-serialize produces exactly the original bytes. -/
theorem sse_write_parse_write_stable :
    ∀ e : Event, e ≠ Event.empty →
      (match e.type_ with | some v => '\n' ∉ v ∧ '\r' ∉ v | none => True) →
      (match e.data with | some v => '\r' ∉ v | none => True) →
      (match e.id with | some v => '\n' ∉ v ∧ '\r' ∉ v | none => True) →
      (match e.retry with | some ms => ms < 2 ^ 64 | none => True) →
      (runIter Event.empty e.write_to).1 = [e]
      ∧ (runIter Event.empty e.write_to).1.map Event.write_to = [e.write_to] := by
  intro e hne ht hd hi hr
  have key : runIter Event.empty e.write_to = ([e], Event.empty, []) := by
    obtain ⟨t, d, i, r⟩ := e
    have ht2 : ∀ v, t = some v → '\n' ∉ v ∧ '\r' ∉ v := fun v hv => by
      subst hv; exact ht
    have hd2 : ∀ v, d = some v → '\r' ∉ v := fun v hv => by
      subst hv; exact hd
    have hi2 : ∀ v, i = some v → '\n' ∉ v ∧ '\r' ∉ v := fun v hv => by
      subst hv; exact hi
    have hr2 : ∀ ms, r = some ms → ms < 2 ^ 64 := fun ms hv => by
      subst hv; exact hr
    have hsd : (setType Event.empty t).data = none := by
      cases t <;> rfl
    have hfin : setRetry (setId (setData (setType Event.empty t) d) i) r
        = (⟨t, d, i, r⟩ : Event) := by
      cases t <;> cases d <;> cases i <;> cases r <;> rfl
    rw [write_to_decomp t d i r,
      runIter_type_block t Event.empty _ ht2,
      runIter_data_opt_block d _ _ hsd hd2,
      runIter_id_block i _ _ hi2,
      runIter_retry_block r _ _ hr2,
      hfin]
    exact runIter_final _ hne
  refine ⟨by rw [key], by rw [key]; rfl⟩

/-- Witness for `sse_write_parse_write_stable` at the event with type
"push", two-line data "a\nb", id "1" and retry 5 ms. -/
theorem sse_write_parse_write_stable_witness :
    (runIter Event.empty
        (Event.write_to (⟨some "push".data, some "a\nb".data, some "1".data, some 5⟩ : Event))).1
      = [(⟨some "push".data, some "a\nb".data, some "1".data, some 5⟩ : Event)]
    ∧ (runIter Event.empty
        (Event.write_to (⟨some "push".data, some "a\nb".data, some "1".data, some 5⟩ : Event))).1.map
          Event.write_to
      = [Event.write_to (⟨some "push".data, some "a\nb".data, some "1".data, some 5⟩ : Event)] := by
  exact sse_write_parse_write_stable
    (⟨some "push".data, some "a\nb".data, some "1".data, some 5⟩ : Event)
    (by decide) (by decide) (by decide) (by decide) (by decide)

end LlmProxy
